import Mathlib

/-!
# Verification of the git-dig analysis core (`src/analyze.js`)

Shallow embedding of the five analyzers (`hotspots`, `coupling`, `codeAge`,
`authors`, `knowledgeSilos`) and the aggregator `analyzeAll`.

Embedding conventions:
* JavaScript `Map` (insertion-ordered, string keys) is modelled by an
  association list `JsMap β := List (String × β)`; `set` updates in place
  when the key exists and appends otherwise, exactly like `Map.set`
  followed by iteration over `entries()` / `values()`.
* JavaScript `Set` of strings is modelled by a duplicate-free list in
  insertion order (`JsSet.add`); `size` is the list length.
* `Array.prototype.sort(cmp)` is stable (ES2019); it is modelled by
  Mathlib's stable `List.insertionSort r` with `r a b ↔ cmp a b ≤ 0`.
* `commit.date` is an ISO-8601 string in the source, used only through
  `new Date(dateStr)`; we embed it as the instant it denotes, an `Int`
  of milliseconds since the epoch.  `Math.floor(ms / 86400000)` becomes
  `Int.fdiv ms 86400000`.
* JavaScript numbers appearing in `coupling`'s `degree` are embedded as
  `ℚ`; note that `count / 0` is `Infinity` in JavaScript but `0` in `ℚ`,
  so theorems about the zero-divisor case talk about the divisor itself.
* `[...new Set(xs)].sort()` deduplicates (keeping first occurrences) and
  then sorts; since the subsequent sort makes the intermediate order
  immaterial for a list of strings, we use `List.dedup` followed by the
  sort, which yields the identical list.
-/

namespace GitDig

/-- One per-file change record of a commit (a `--numstat` line). -/
structure FileChange where
  path : String
  added : Nat
  deleted : Nat
  binary : Bool
deriving DecidableEq

/-- A parsed commit record.  `date` is the instant (ms since epoch) that the
ISO-8601 date string of the source denotes. -/
structure Commit where
  hash : String
  author : String
  date : Int
  message : String
  files : List FileChange
deriving DecidableEq

/-- Insertion-ordered string-keyed map, modelling a JavaScript `Map`
(iteration order of `entries()` / `values()` is insertion order). -/
abbrev JsMap (β : Type) : Type := List (String × β)

/-- `Map.prototype.get` (`none` for a missing key). -/
def JsMap.find? {β : Type} : JsMap β → String → Option β
  | [], _ => none
  | (k', v) :: rest, k => if k' = k then some v else JsMap.find? rest k

/-- `Map.prototype.set`: update in place when present, append when absent. -/
def JsMap.set {β : Type} : JsMap β → String → β → JsMap β
  | [], k, v => [(k, v)]
  | (k', v') :: rest, k, v =>
      if k' = k then (k', v) :: rest else (k', v') :: JsMap.set rest k v

/-- `Set.prototype.add` on a JavaScript `Set` of strings (insertion order,
no duplicates). -/
def JsSet.add (s : List String) (a : String) : List String :=
  if a ∈ s then s else s ++ [a]

/-! ## Hotspot analyzer -/

/-- The mutable per-path aggregate of `hotspots` (`{path, commits, added,
deleted, authors}` with `authors` a `Set`). -/
structure HotAcc where
  path : String
  commits : Nat
  added : Nat
  deleted : Nat
  authors : List String
deriving DecidableEq

/-- Body of the inner `for (const f of commit.files)` loop of `hotspots`. -/
def hotspotsFileStep (author : String) (files : JsMap HotAcc) (f : FileChange) :
    JsMap HotAcc :=
  let entry := (JsMap.find? files f.path).getD ⟨f.path, 0, 0, 0, []⟩
  JsMap.set files f.path
    ⟨f.path, entry.commits + 1, entry.added + f.added, entry.deleted + f.deleted,
      JsSet.add entry.authors author⟩

/-- Body of the outer `for (const commit of commits)` loop of `hotspots`. -/
def hotspotsStep (files : JsMap HotAcc) (c : Commit) : JsMap HotAcc :=
  c.files.foldl (hotspotsFileStep c.author) files

/-- The fully accumulated `files` map of `hotspots`. -/
def hotspotsMap (commits : List Commit) : JsMap HotAcc :=
  commits.foldl hotspotsStep []

/-- One row of the `hotspots` result. -/
structure HotspotEntry where
  path : String
  commits : Nat
  churn : Nat
  added : Nat
  deleted : Nat
  authors : Nat
deriving DecidableEq

/-- `(a, b) => b.commits - a.commits || b.churn - a.churn` as the
"`a` may come before `b`" relation (comparator result `≤ 0`). -/
def hotLe (a b : HotspotEntry) : Prop :=
  b.commits < a.commits ∨ (b.commits = a.commits ∧ b.churn ≤ a.churn)

instance : DecidableRel hotLe := fun a b => by unfold hotLe; infer_instance

/-- `hotspots(commits, { top })`. -/
def hotspots (commits : List Commit) (top : Nat) : List HotspotEntry :=
  (List.insertionSort hotLe ((hotspotsMap commits).map fun kv =>
    ⟨kv.2.path, kv.2.commits, kv.2.added + kv.2.deleted, kv.2.added, kv.2.deleted,
      kv.2.authors.length⟩)).take top

/-! ## Coupling analyzer -/

/-- Lexicographic comparison of character lists — the comparison underlying
the default JavaScript sort on strings (and Lean's `List.lt`).  Defined by
structural recursion so that terms evaluate inside the kernel. -/
def charListLt : List Char → List Char → Bool
  | [], [] => false
  | [], _ :: _ => true
  | _ :: _, [] => false
  | a :: as, b :: bs =>
    if a < b then true else if b < a then false else charListLt as bs

/-- `a ≤ b` on strings as a computable Boolean (`¬ b < a`). -/
def strLeb (a b : String) : Bool := !(charListLt b.data a.data)

/-- `[...new Set(commit.files.map(f => f.path))].sort()`: the distinct touched
paths in ascending lexicographic order. -/
def distinctPaths (c : Commit) : List String :=
  List.insertionSort (fun a b => strLeb a b = true)
    (c.files.map FileChange.path).dedup

/-- The pair keys produced by the double loop
`for i; for j > i; key = paths[i] + ":::" + paths[j]`, in loop order. -/
def pairKeys : List String → List String
  | [] => []
  | p :: rest => (rest.map fun q => p ++ ":::" ++ q) ++ pairKeys rest

/-- `m.set(k, (m.get(k) || 0) + 1)` for each key in turn. -/
def bumpAll (m : JsMap Nat) (ks : List String) : JsMap Nat :=
  ks.foldl (fun m k => JsMap.set m k ((JsMap.find? m k).getD 0 + 1)) m

/-- Body of the `for (const commit of commits)` loop of `coupling`.
State is `(pairs, fileCounts)`. -/
def couplingStep (maxFilesPerCommit : Nat) (st : JsMap Nat × JsMap Nat)
    (c : Commit) : JsMap Nat × JsMap Nat :=
  let paths := distinctPaths c
  if paths.length < 2 ∨ maxFilesPerCommit < paths.length then st
  else (bumpAll st.1 (pairKeys paths), bumpAll st.2 paths)

/-- The accumulated `(pairs, fileCounts)` state of `coupling`. -/
def couplingState (commits : List Commit) (maxFilesPerCommit : Nat) :
    JsMap Nat × JsMap Nat :=
  commits.foldl (couplingStep maxFilesPerCommit) ([], [])

/-- `String.prototype.split(':::')` on the underlying character list:
scan left to right, cut at each (leftmost, non-overlapping) occurrence. -/
def jsSplit3 (acc : List Char) : List Char → List (List Char)
  | ':' :: ':' :: ':' :: rest => acc.reverse :: jsSplit3 [] rest
  | c :: rest => jsSplit3 (c :: acc) rest
  | [] => [acc.reverse]

/-- `key.split(':::')` at the string level. -/
def splitKey (s : String) : List String :=
  (jsSplit3 [] s.data).map String.mk

/-- `Math.round(q * 100) / 100` (both round half toward `+∞` on the
values at hand). -/
def roundTo2 (q : ℚ) : ℚ := (round (q * 100) : ℤ) / 100

/-- One row of the `coupling` result. -/
structure CouplingPair where
  fileA : String
  fileB : String
  coupled : Nat
  degree : ℚ
deriving DecidableEq

/-- `(a, b) => b.coupled - a.coupled || b.degree - a.degree` as the
"`a` may come before `b`" relation. -/
def couplingLe (a b : CouplingPair) : Prop :=
  b.coupled < a.coupled ∨ (b.coupled = a.coupled ∧ b.degree ≤ a.degree)

instance : DecidableRel couplingLe := fun a b => by unfold couplingLe; infer_instance

/-- `coupling(commits, { top, minCommits, maxFilesPerCommit })`.
`minCommits` is an arbitrary (possibly non-positive) integer.
In the source `degree = count / Math.min(totalA, totalB)`; a zero divisor
yields `Infinity` in JavaScript, while the `ℚ` embedding yields `0` —
theorems about that case therefore speak about the divisor itself. -/
def coupling (commits : List Commit) (top : Nat) (minCommits : Int)
    (maxFilesPerCommit : Nat) : List CouplingPair :=
  let st := couplingState commits maxFilesPerCommit
  (List.insertionSort couplingLe
    ((st.1.filter fun kv => minCommits ≤ (kv.2 : Int)).map fun kv =>
      let parts := splitKey kv.1
      let fileA := parts.headD ""
      let fileB := (parts.drop 1).headD ""
      let totalA := (JsMap.find? st.2 fileA).getD 0
      let totalB := (JsMap.find? st.2 fileB).getD 0
      ⟨fileA, fileB, kv.2, roundTo2 ((kv.2 : ℚ) / (min totalA totalB : ℚ))⟩)).take top

/-! ## Code-age analyzer -/

/-- Body of the date-collection loop of `codeAge`; state is
`(lastModified, firstSeen)`, both "set if absent". -/
def codeAgeStep (st : JsMap Int × JsMap Int) (c : Commit) : JsMap Int × JsMap Int :=
  c.files.foldl (fun st f =>
    let fs := if (JsMap.find? st.2 f.path).isSome then st.2
              else JsMap.set st.2 f.path c.date
    let lm := if (JsMap.find? st.1 f.path).isSome then st.1
              else JsMap.set st.1 f.path c.date
    (lm, fs)) st

/-- One element of the internal `files` array of `codeAge`. -/
structure AgeEntry where
  path : String
  lastModified : Int
  firstSeen : Int
  ageDays : Int
deriving DecidableEq

/-- Milliseconds per day (`1000 * 60 * 60 * 24`). -/
def msPerDay : Int := 86400000

/-- The internal `files` array of `codeAge`, built by iterating
`lastModified.entries()`; `ageDays = Math.floor((now - last) / 86400000)`. -/
def codeAgeFiles (commits : List Commit) (now : Int) : List AgeEntry :=
  let st := commits.foldl codeAgeStep ([], [])
  st.1.map fun kv =>
    ⟨kv.1, kv.2, (JsMap.find? st.2 kv.1).getD 0, Int.fdiv (now - kv.2) msPerDay⟩

/-- The five age buckets. -/
structure AgeBuckets where
  fresh : Nat
  recent : Nat
  aging : Nat
  stale : Nat
  ancient : Nat
deriving DecidableEq

/-- The `if / else if` bucket classification of one file. -/
def bucketsStep (b : AgeBuckets) (f : AgeEntry) : AgeBuckets :=
  if f.ageDays ≤ 7 then { b with fresh := b.fresh + 1 }
  else if f.ageDays ≤ 30 then { b with recent := b.recent + 1 }
  else if f.ageDays ≤ 90 then { b with aging := b.aging + 1 }
  else if f.ageDays ≤ 365 then { b with stale := b.stale + 1 }
  else { b with ancient := b.ancient + 1 }

/-- The value returned by `codeAge`. -/
structure CodeAgeReport where
  buckets : AgeBuckets
  oldest : List AgeEntry
  freshest : List AgeEntry
  totalFiles : Nat
deriving DecidableEq

/-- `(a, b) => b.ageDays - a.ageDays` (descending age). -/
def oldLe (a b : AgeEntry) : Prop := b.ageDays ≤ a.ageDays

instance : DecidableRel oldLe := fun a b => by unfold oldLe; infer_instance

/-- `(a, b) => a.ageDays - b.ageDays` (ascending age). -/
def freshLe (a b : AgeEntry) : Prop := a.ageDays ≤ b.ageDays

instance : DecidableRel freshLe := fun a b => by unfold freshLe; infer_instance

/-- `codeAge(commits)`.  `now` is the instant `new Date()` read from the
wall clock inside the source function; it is an explicit parameter here. -/
def codeAge (commits : List Commit) (now : Int) : CodeAgeReport :=
  let files := codeAgeFiles commits now
  { buckets := files.foldl bucketsStep ⟨0, 0, 0, 0, 0⟩
    oldest := (List.insertionSort oldLe files).take 15
    freshest := (List.insertionSort freshLe files).take 15
    totalFiles := files.length }

/-! ## Author analyzer -/

/-- The mutable per-author aggregate of `authors`. -/
structure AuthAcc where
  name : String
  commits : Nat
  added : Nat
  deleted : Nat
  files : List String
deriving DecidableEq

/-- Body of the `for (const commit of commits)` loop of `authors`. -/
def authorsStep (m : JsMap AuthAcc) (c : Commit) : JsMap AuthAcc :=
  let e0 := (JsMap.find? m c.author).getD ⟨c.author, 0, 0, 0, []⟩
  let e := c.files.foldl (fun (e : AuthAcc) f =>
      ⟨e.name, e.commits, e.added + f.added, e.deleted + f.deleted,
        JsSet.add e.files f.path⟩)
    ⟨e0.name, e0.commits + 1, e0.added, e0.deleted, e0.files⟩
  JsMap.set m c.author e

/-- One row of the `authors` result. -/
structure AuthorEntry where
  name : String
  commits : Nat
  added : Nat
  deleted : Nat
  filesChanged : Nat
deriving DecidableEq

/-- `(a, b) => b.commits - a.commits` as the "may come before" relation. -/
def authLe (a b : AuthorEntry) : Prop := b.commits ≤ a.commits

instance : DecidableRel authLe := fun a b => by unfold authLe; infer_instance

/-- `authors(commits, { top })`. -/
def authors (commits : List Commit) (top : Nat) : List AuthorEntry :=
  (List.insertionSort authLe ((commits.foldl authorsStep []).map fun kv =>
    ⟨kv.2.name, kv.2.commits, kv.2.added, kv.2.deleted, kv.2.files.length⟩)).take top

/-! ## Knowledge-silo analyzer -/

/-- The per-path aggregate of `knowledgeSilos` (`{authors: Set, commits}`). -/
structure SiloAcc where
  authors : List String
  commits : Nat
deriving DecidableEq

/-- Body of the inner `for (const f of commit.files)` loop of
`knowledgeSilos`. -/
def silosFileStep (author : String) (m : JsMap SiloAcc) (f : FileChange) :
    JsMap SiloAcc :=
  let e := (JsMap.find? m f.path).getD ⟨[], 0⟩
  JsMap.set m f.path ⟨JsSet.add e.authors author, e.commits + 1⟩

/-- Body of the outer loop of `knowledgeSilos`. -/
def silosStep (m : JsMap SiloAcc) (c : Commit) : JsMap SiloAcc :=
  c.files.foldl (silosFileStep c.author) m

/-- The fully accumulated `fileAuthors` map of `knowledgeSilos`. -/
def silosMap (commits : List Commit) : JsMap SiloAcc :=
  commits.foldl silosStep []

/-- One row of the `knowledgeSilos` result. -/
structure SiloEntry where
  path : String
  author : String
  commits : Nat
deriving DecidableEq

/-- `(a, b) => b.commits - a.commits` as the "may come before" relation. -/
def siloLe (a b : SiloEntry) : Prop := b.commits ≤ a.commits

instance : DecidableRel siloLe := fun a b => by unfold siloLe; infer_instance

/-- The body of the `for (const [path, data] of fileAuthors.entries())`
loop of `knowledgeSilos`: emit an entry iff the distinct-author set has
size 1 and the count meets the threshold; `author` is
`[...data.authors][0]`. -/
def siloEntryOf (minCommits : Int) (kv : String × SiloAcc) : Option SiloEntry :=
  if kv.2.authors.length = 1 ∧ minCommits ≤ (kv.2.commits : Int) then
    some ⟨kv.1, kv.2.authors.headD "", kv.2.commits⟩
  else none

/-- The unsorted `silos` array: entries of `fileAuthors` in insertion
order, filtered by `siloEntryOf`. -/
def silosList (commits : List Commit) (minCommits : Int) : List SiloEntry :=
  (silosMap commits).filterMap (siloEntryOf minCommits)

/-- `knowledgeSilos(commits, { minCommits })` (output capped at 30). -/
def knowledgeSilos (commits : List Commit) (minCommits : Int) : List SiloEntry :=
  (List.insertionSort siloLe (silosList commits minCommits)).take 30

/-! ## Aggregator -/

/-- The `summary` part of `analyzeAll`; `dateRange` is
`some (from, to)` or `none`. -/
structure Summary where
  totalCommits : Nat
  totalAuthors : Nat
  dateRange : Option (Int × Int)
deriving DecidableEq

/-- The value returned by `analyzeAll`. -/
structure AnalysisReport where
  summary : Summary
  hotspots : List HotspotEntry
  coupling : List CouplingPair
  codeAge : CodeAgeReport
  authors : List AuthorEntry
  knowledgeSilos : List SiloEntry
deriving DecidableEq

/-- `analyzeAll(commits)` with the analyzers' default options
(`top = 20 / 20 / 15`, `minCommits = 3 / 2`, `maxFilesPerCommit = 30`);
`now` is the wall-clock instant read inside `codeAge`. -/
def analyzeAll (commits : List Commit) (now : Int) : AnalysisReport :=
  { summary :=
      { totalCommits := commits.length
        totalAuthors := (commits.foldl (fun s c => JsSet.add s c.author) []).length
        dateRange :=
          if commits.length = 0 then none
          else some (((commits.getLast?).map Commit.date).getD 0,
                     ((commits.head?).map Commit.date).getD 0) }
    hotspots := hotspots commits 20
    coupling := coupling commits 20 3 30
    codeAge := codeAge commits now
    authors := authors commits 15
    knowledgeSilos := knowledgeSilos commits 2 }

/-! ## Spec-side definitions (used to state the claims) -/

/-- `c` touches path `p`: some file-change record of `c` names `p`. -/
def touches (c : Commit) (p : String) : Bool :=
  c.files.any fun f => f.path == p

/-- Number of commits whose file list touches `p` — the spec's
"count of commits touching path" (each commit contributing at most 1). -/
def commitsTouching (commits : List Commit) (p : String) : Nat :=
  commits.countP fun c => touches c p

/-- Number of file-change records naming `p`, summed over all commits. -/
def recordsTouching (commits : List Commit) (p : String) : Nat :=
  (commits.map fun c => c.files.countP fun f => f.path == p).sum

/-- The string contains no `':'` character. -/
def colonFree (s : String) : Bool :=
  s.data.all fun ch => ch ≠ ':'

/-- Every path of every commit is free of `':'`. -/
def pathsColonFree (commits : List Commit) : Prop :=
  ∀ c ∈ commits, ∀ f ∈ c.files, colonFree f.path = true

/-! ## Support lemmas: maps and sets -/

theorem JsMap.find?_set {β : Type} (m : JsMap β) (k k' : String) (v : β) :
    JsMap.find? (JsMap.set m k v) k' = if k = k' then some v else JsMap.find? m k' := by
  induction m with
  | nil => simp [JsMap.set, JsMap.find?]
  | cons kv rest ih =>
    obtain ⟨k0, v0⟩ := kv
    by_cases h0 : k0 = k
    · subst h0
      by_cases h1 : k0 = k'
      · subst h1; simp [JsMap.set, JsMap.find?]
      · simp [JsMap.set, JsMap.find?, h1]
    · by_cases h1 : k0 = k'
      · subst h1
        have hk : ¬ k = k0 := fun h => h0 h.symm
        simp [JsMap.set, JsMap.find?, h0, hk]
      · simp [JsMap.set, JsMap.find?, h0, h1, ih]

theorem JsMap.find?_eq_none {β : Type} (m : JsMap β) (k : String)
    (h : k ∉ m.map Prod.fst) : JsMap.find? m k = none := by
  induction m with
  | nil => rfl
  | cons kv rest ih =>
    simp only [List.map_cons, List.mem_cons] at h
    push_neg at h
    rw [JsMap.find?, if_neg (fun hh => h.1 hh.symm)]
    exact ih h.2

theorem JsMap.find?_isSome {β : Type} (m : JsMap β) (k : String)
    (h : k ∈ m.map Prod.fst) : (JsMap.find? m k).isSome := by
  induction m with
  | nil => simp at h
  | cons kv rest ih =>
    simp only [List.map_cons, List.mem_cons] at h
    by_cases h0 : kv.1 = k
    · simp [JsMap.find?, h0]
    · simp only [JsMap.find?, if_neg h0]
      exact ih (h.resolve_left fun hh => h0 hh.symm)

theorem JsMap.map_fst_set {β : Type} (m : JsMap β) (k : String) (v : β) :
    (JsMap.set m k v).map Prod.fst =
      if k ∈ m.map Prod.fst then m.map Prod.fst else m.map Prod.fst ++ [k] := by
  induction m with
  | nil => simp [JsMap.set]
  | cons kv rest ih =>
    obtain ⟨k0, v0⟩ := kv
    simp only [JsMap.set]
    by_cases h0 : k0 = k
    · subst h0; simp
    · have hne : ¬ k = k0 := fun h => h0 h.symm
      simp only [if_neg h0, List.map_cons, ih]
      by_cases h1 : k ∈ rest.map Prod.fst <;>
        simp [h1, List.mem_cons, hne]

theorem JsMap.nodup_keys_set {β : Type} (m : JsMap β) (k : String) (v : β)
    (h : (m.map Prod.fst).Nodup) : ((JsMap.set m k v).map Prod.fst).Nodup := by
  rw [JsMap.map_fst_set]
  by_cases h1 : k ∈ m.map Prod.fst
  · simpa [h1]
  · simpa [h1, List.nodup_append] using h

theorem JsMap.find?_of_mem {β : Type} (m : JsMap β) (kv : String × β)
    (hnd : (m.map Prod.fst).Nodup) (hm : kv ∈ m) :
    JsMap.find? m kv.1 = some kv.2 := by
  induction m with
  | nil => simp at hm
  | cons kv0 rest ih =>
    simp only [List.map_cons, List.nodup_cons] at hnd
    rcases List.mem_cons.mp hm with h | h
    · subst h; simp [JsMap.find?]
    · have hne : kv0.1 ≠ kv.1 := by
        intro he
        exact hnd.1 (he ▸ List.mem_map_of_mem Prod.fst h)
      simp only [JsMap.find?, if_neg hne]
      exact ih hnd.2 h

theorem JsMap.mem_set {β : Type} (m : JsMap β) (k : String) (v : β) (kv : String × β)
    (h : kv ∈ JsMap.set m k v) : kv = (k, v) ∨ kv ∈ m := by
  induction m with
  | nil => simpa [JsMap.set] using h
  | cons kv0 rest ih =>
    simp only [JsMap.set] at h
    by_cases h0 : kv0.1 = k
    · rw [if_pos h0] at h
      rcases List.mem_cons.mp h with h | h
      · subst h; left; rw [← h0]
      · right; exact List.mem_cons_of_mem _ h
    · rw [if_neg h0] at h
      rcases List.mem_cons.mp h with h | h
      · right; exact h ▸ List.mem_cons_self _ _
      · rcases ih h with h | h
        · left; exact h
        · right; exact List.mem_cons_of_mem _ h

theorem JsSet.mem_add (s : List String) (a x : String) :
    x ∈ JsSet.add s a ↔ x ∈ s ∨ x = a := by
  unfold JsSet.add
  by_cases h : a ∈ s
  · simp only [if_pos h]
    constructor
    · exact fun hx => Or.inl hx
    · rintro (hx | rfl) <;> [exact hx; exact h]
  · simp [if_neg h]

theorem JsSet.nodup_add (s : List String) (a : String) (h : s.Nodup) :
    (JsSet.add s a).Nodup := by
  unfold JsSet.add
  by_cases ha : a ∈ s
  · simpa [ha]
  · simpa [ha, List.nodup_append] using h

/-- Fold preservation of an invariant. -/
theorem foldl_inv {σ α : Type} (step : σ → α → σ) (Q : σ → Prop)
    (h : ∀ s x, Q s → Q (step s x)) :
    ∀ (l : List α) (s : σ), Q s → Q (l.foldl step s) := by
  intro l
  induction l with
  | nil => exact fun s hs => hs
  | cons x xs ih => exact fun s hs => ih _ (h s x hs)

/-! ## Support lemmas: the per-path commit counters -/

/-- The `commits` counter stored for `p` in the hotspot map (0 when absent). -/
def hotCount (m : JsMap HotAcc) (p : String) : Nat :=
  ((JsMap.find? m p).map HotAcc.commits).getD 0

theorem hotCount_fileStep (a : String) (m : JsMap HotAcc) (f : FileChange) (p : String) :
    hotCount (hotspotsFileStep a m f) p
      = hotCount m p + if f.path = p then 1 else 0 := by
  simp only [hotCount, hotspotsFileStep]
  rw [JsMap.find?_set]
  by_cases h : f.path = p
  · subst h
    cases hm : JsMap.find? m f.path <;> simp [hm]
  · simp [h]

theorem hotCount_foldFiles (a : String) (p : String) :
    ∀ (fs : List FileChange) (m : JsMap HotAcc),
      hotCount (fs.foldl (hotspotsFileStep a) m) p
        = hotCount m p + fs.countP (fun f => f.path == p) := by
  intro fs
  induction fs with
  | nil => simp
  | cons f fs ih =>
    intro m
    rw [List.foldl_cons, ih, hotCount_fileStep, List.countP_cons]
    by_cases h : f.path = p <;> simp [h] <;> omega

theorem hotCount_map (commits : List Commit) (p : String) :
    hotCount (hotspotsMap commits) p = recordsTouching commits p := by
  unfold hotspotsMap recordsTouching
  suffices h : ∀ (l : List Commit) (m : JsMap HotAcc),
      hotCount (l.foldl hotspotsStep m) p
        = hotCount m p + (l.map fun c => c.files.countP fun f => f.path == p).sum by
    have h0 : hotCount [] p = 0 := rfl
    simpa [h0] using h commits []
  intro l
  induction l with
  | nil => simp
  | cons c l ih =>
    intro m
    rw [List.foldl_cons, ih]
    show hotCount (c.files.foldl (hotspotsFileStep c.author) m) p + _ = _
    rw [hotCount_foldFiles]
    simp only [List.map_cons, List.sum_cons]
    omega

/-- Well-formedness of the hotspot map: keys are distinct and each stored
aggregate's `path` equals its key. -/
def hotWF (m : JsMap HotAcc) : Prop :=
  (m.map Prod.fst).Nodup ∧ ∀ kv ∈ m, kv.2.path = kv.1

theorem hotWF_map (commits : List Commit) : hotWF (hotspotsMap commits) := by
  unfold hotspotsMap
  refine foldl_inv hotspotsStep hotWF ?_ commits [] ⟨List.nodup_nil, by simp⟩
  intro m c hm
  unfold hotspotsStep
  refine foldl_inv (hotspotsFileStep c.author) hotWF ?_ c.files m hm
  intro m f hm
  unfold hotspotsFileStep
  refine ⟨JsMap.nodup_keys_set _ _ _ hm.1, ?_⟩
  intro kv hkv
  rcases JsMap.mem_set _ _ _ _ hkv with h | h
  · subst h; rfl
  · exact hm.2 kv h

/-- The `commits` counter stored for `p` in the silo map (0 when absent). -/
def siloCount (m : JsMap SiloAcc) (p : String) : Nat :=
  ((JsMap.find? m p).map SiloAcc.commits).getD 0

theorem siloCount_fileStep (a : String) (m : JsMap SiloAcc) (f : FileChange) (p : String) :
    siloCount (silosFileStep a m f) p
      = siloCount m p + if f.path = p then 1 else 0 := by
  simp only [siloCount, silosFileStep]
  rw [JsMap.find?_set]
  by_cases h : f.path = p
  · subst h
    cases hm : JsMap.find? m f.path <;> simp [hm]
  · simp [h]

theorem siloCount_foldFiles (a : String) (p : String) :
    ∀ (fs : List FileChange) (m : JsMap SiloAcc),
      siloCount (fs.foldl (silosFileStep a) m) p
        = siloCount m p + fs.countP (fun f => f.path == p) := by
  intro fs
  induction fs with
  | nil => simp
  | cons f fs ih =>
    intro m
    rw [List.foldl_cons, ih, siloCount_fileStep, List.countP_cons]
    by_cases h : f.path = p <;> simp [h] <;> omega

theorem siloCount_map (commits : List Commit) (p : String) :
    siloCount (silosMap commits) p = recordsTouching commits p := by
  unfold silosMap recordsTouching
  suffices h : ∀ (l : List Commit) (m : JsMap SiloAcc),
      siloCount (l.foldl silosStep m) p
        = siloCount m p + (l.map fun c => c.files.countP fun f => f.path == p).sum by
    have h0 : siloCount [] p = 0 := rfl
    simpa [h0] using h commits []
  intro l
  induction l with
  | nil => simp
  | cons c l ih =>
    intro m
    rw [List.foldl_cons, ih]
    show siloCount (c.files.foldl (silosFileStep c.author) m) p + _ = _
    rw [siloCount_foldFiles]
    simp only [List.map_cons, List.sum_cons]
    omega

theorem silos_nodup_keys (commits : List Commit) :
    ((silosMap commits).map Prod.fst).Nodup := by
  unfold silosMap
  refine foldl_inv silosStep (fun m => (m.map Prod.fst).Nodup) ?_ commits [] List.nodup_nil
  intro m c hm
  unfold silosStep
  refine foldl_inv (silosFileStep c.author) (fun m => (m.map Prod.fst).Nodup) ?_ c.files m hm
  intro m f hm
  exact JsMap.nodup_keys_set _ _ _ hm

/-- With duplicate-free per-commit path lists, the per-record count is the
per-commit count. -/
theorem countP_path_of_nodup (fs : List FileChange) (p : String)
    (h : (fs.map FileChange.path).Nodup) :
    fs.countP (fun f => f.path == p)
      = if fs.any (fun f => f.path == p) then 1 else 0 := by
  induction fs with
  | nil => simp
  | cons f fs ih =>
    simp only [List.map_cons, List.nodup_cons] at h
    rw [List.countP_cons, List.any_cons]
    by_cases hp : f.path = p
    · subst hp
      have h0 : fs.countP (fun g => g.path == f.path) = 0 := by
        refine List.countP_eq_zero.mpr ?_
        intro g hg hgp
        exact h.1 (by
          have : g.path = f.path := by simpa using hgp
          exact this ▸ List.mem_map_of_mem FileChange.path hg)
      simp [h0]
    · have hb : (f.path == p) = false := by simpa using hp
      rw [ih h.2]
      simp [hb]

theorem records_eq_commits (commits : List Commit) (p : String)
    (h : ∀ c ∈ commits, (c.files.map FileChange.path).Nodup) :
    recordsTouching commits p = commitsTouching commits p := by
  induction commits with
  | nil => rfl
  | cons c l ih =>
    unfold recordsTouching commitsTouching at *
    simp only [List.map_cons, List.sum_cons, List.countP_cons]
    rw [countP_path_of_nodup c.files p (h c (List.mem_cons_self c l)),
      ih (fun c' hc' => h c' (List.mem_cons_of_mem _ hc'))]
    simp only [touches]
    by_cases hc : c.files.any (fun f => f.path == p) <;> simp [hc] <;> omega

/-- Every hotspot result row comes from a map entry. -/
theorem mem_hotspots (commits : List Commit) (top : Nat) (e : HotspotEntry)
    (he : e ∈ hotspots commits top) :
    ∃ kv ∈ hotspotsMap commits,
      e = ⟨kv.2.path, kv.2.commits, kv.2.added + kv.2.deleted, kv.2.added,
        kv.2.deleted, kv.2.authors.length⟩ := by
  unfold hotspots at he
  have h1 := List.mem_of_mem_take he
  have h2 := (List.perm_insertionSort hotLe _).mem_iff.mp h1
  rcases List.mem_map.mp h2 with ⟨kv, hkv, hge⟩
  exact ⟨kv, hkv, hge.symm⟩

theorem siloEntryOf_pos (minCommits : Int) (kv : String × SiloAcc)
    (h : kv.2.authors.length = 1 ∧ minCommits ≤ (kv.2.commits : Int)) :
    siloEntryOf minCommits kv
      = some ⟨kv.1, kv.2.authors.headD "", kv.2.commits⟩ := if_pos h

theorem siloEntryOf_neg (minCommits : Int) (kv : String × SiloAcc)
    (h : ¬ (kv.2.authors.length = 1 ∧ minCommits ≤ (kv.2.commits : Int))) :
    siloEntryOf minCommits kv = none := if_neg h

/-- Every silo result row comes from a map entry passing the filter. -/
theorem mem_knowledgeSilos (commits : List Commit) (minCommits : Int) (e : SiloEntry)
    (he : e ∈ knowledgeSilos commits minCommits) :
    ∃ kv ∈ silosMap commits,
      (kv.2.authors.length = 1 ∧ minCommits ≤ (kv.2.commits : Int)) ∧
      e = ⟨kv.1, kv.2.authors.headD "", kv.2.commits⟩ := by
  unfold knowledgeSilos at he
  have h1 := List.mem_of_mem_take he
  have h2 := (List.perm_insertionSort siloLe _).mem_iff.mp h1
  unfold silosList at h2
  rcases List.mem_filterMap.mp h2 with ⟨kv, hkv, hfe⟩
  by_cases hc : kv.2.authors.length = 1 ∧ minCommits ≤ (kv.2.commits : Int)
  · rw [siloEntryOf_pos minCommits kv hc] at hfe
    exact ⟨kv, hkv, hc, (Option.some_inj.mp hfe).symm⟩
  · rw [siloEntryOf_neg minCommits kv hc] at hfe
    cases hfe

theorem JsMap.mem_of_find? {β : Type} (m : JsMap β) (k : String) (v : β)
    (h : JsMap.find? m k = some v) : (k, v) ∈ m := by
  induction m with
  | nil => cases h
  | cons kv rest ih =>
    rw [JsMap.find?] at h
    by_cases h0 : kv.1 = k
    · rw [if_pos h0] at h
      obtain ⟨k0, v0⟩ := kv
      simp only at h0
      injection h with h1
      subst h1
      subst h0
      exact List.mem_cons_self _ _
    · rw [if_neg h0] at h
      exact List.mem_cons_of_mem _ (ih h)

/-- Name preservation through the per-file fold of `authorsStep`. -/
theorem authorsFold_name (fs : List FileChange) :
    ∀ e : AuthAcc,
      (fs.foldl (fun (e : AuthAcc) f =>
        ⟨e.name, e.commits, e.added + f.added, e.deleted + f.deleted,
          JsSet.add e.files f.path⟩) e).name = e.name := by
  induction fs with
  | nil => intro e; rfl
  | cons f fs ih => intro e; rw [List.foldl_cons, ih]

/-- Well-formedness of the author map: keys distinct, stored `name` = key. -/
def authWF (m : JsMap AuthAcc) : Prop :=
  (m.map Prod.fst).Nodup ∧ ∀ kv ∈ m, kv.2.name = kv.1

theorem authWF_map (commits : List Commit) :
    authWF (commits.foldl authorsStep []) := by
  refine foldl_inv authorsStep authWF ?_ commits [] ⟨List.nodup_nil, by simp⟩
  intro m c hm
  unfold authorsStep
  refine ⟨JsMap.nodup_keys_set _ _ _ hm.1, ?_⟩
  intro kv hkv
  rcases JsMap.mem_set _ _ _ _ hkv with h | h
  · subst h
    simp only
    rw [authorsFold_name]
    simp only
    cases hf : JsMap.find? m c.author with
    | none => rfl
    | some v =>
      simp only [Option.getD_some]
      exact hm.2 (c.author, v) (JsMap.mem_of_find? m c.author v hf)
  · exact hm.2 kv h

/-- Sorting and truncating preserves distinctness of a projection. -/
theorem nodup_map_take_sort {α : Type} (r : α → α → Prop) [DecidableRel r]
    (f : α → String) (l : List α) (n : Nat) (h : (l.map f).Nodup) :
    (((List.insertionSort r l).take n).map f).Nodup := by
  have hperm : List.Perm ((List.insertionSort r l).map f) (l.map f) :=
    (List.perm_insertionSort r l).map f
  have hs : ((List.insertionSort r l).map f).Nodup := hperm.nodup_iff.mpr h
  exact List.Sublist.nodup (List.Sublist.map f (List.take_sublist n _)) hs

theorem silosList_paths_sublist (commits : List Commit) (minCommits : Int) :
    List.Sublist ((silosList commits minCommits).map SiloEntry.path)
      ((silosMap commits).map Prod.fst) := by
  unfold silosList
  generalize silosMap commits = M
  induction M with
  | nil => simp
  | cons kv M ih =>
    by_cases hc : kv.2.authors.length = 1 ∧ minCommits ≤ (kv.2.commits : Int)
    · rw [List.filterMap_cons_some (siloEntryOf_pos minCommits kv hc)]
      exact List.Sublist.cons₂ kv.1 ih
    · rw [List.filterMap_cons_none (siloEntryOf_neg minCommits kv hc)]
      exact List.Sublist.cons kv.1 ih

/-! ## Sortedness infrastructure -/

instance : IsTotal HotspotEntry hotLe := ⟨fun a b => by unfold hotLe; omega⟩

instance : IsTrans HotspotEntry hotLe := ⟨fun a b c => by unfold hotLe; omega⟩

instance : IsTotal SiloEntry siloLe := ⟨fun a b => by unfold siloLe; omega⟩

instance : IsTrans SiloEntry siloLe := ⟨fun a b c => by unfold siloLe; omega⟩

instance : IsTotal AuthorEntry authLe := ⟨fun a b => by unfold authLe; omega⟩

instance : IsTrans AuthorEntry authLe := ⟨fun a b c => by unfold authLe; omega⟩

/-! ## Claim theorems -/

/-- A single commit that lists the same path `"a"` in two file-change
records (duplicate `--numstat` lines for one path do occur in the repo's
own test fixture). -/
def dupPathCommits : List Commit :=
  [⟨"h1", "A", 0, "m", [⟨"a", 1, 0, false⟩, ⟨"a", 2, 0, false⟩]⟩]

/-- C1, counterexample: on a commit listing path `"a"` in two file-change
records, both `hotspots` and `knowledgeSilos` report `commits = 2` for
`"a"`, while only one commit touches `"a"` — each commit does **not**
contribute at most 1. -/
theorem hotspots_commits_per_record :
    (∃ e ∈ hotspots dupPathCommits 20, e.path = "a" ∧ e.commits = 2) ∧
    (∃ e ∈ knowledgeSilos dupPathCommits 1, e.path = "a" ∧ e.commits = 2) ∧
    commitsTouching dupPathCommits "a" = 1 := by decide

/-- C1, amended: for every commit sequence **in which no commit lists the
same path twice**, the `commits` field reported for a path by `hotspots`
and by `knowledgeSilos` equals the number of commits whose file list
touches that path.  (In general it equals the number of file-change
records naming the path.) -/
theorem hotspots_silos_commits_count (commits : List Commit) (top : Nat)
    (minCommits : Int)
    (h : ∀ c ∈ commits, (c.files.map FileChange.path).Nodup) :
    (∀ e ∈ hotspots commits top, e.commits = commitsTouching commits e.path) ∧
    (∀ e ∈ knowledgeSilos commits minCommits,
      e.commits = commitsTouching commits e.path) := by
  constructor
  · intro e he
    rcases mem_hotspots commits top e he with ⟨kv, hkv, rfl⟩
    have hwf := hotWF_map commits
    have hfind := JsMap.find?_of_mem _ kv hwf.1 hkv
    have hcount : hotCount (hotspotsMap commits) kv.1 = kv.2.commits := by
      simp [hotCount, hfind]
    have hpath : kv.2.path = kv.1 := hwf.2 kv hkv
    show kv.2.commits = commitsTouching commits kv.2.path
    rw [hpath, ← records_eq_commits commits kv.1 h, ← hotCount_map, hcount]
  · intro e he
    rcases mem_knowledgeSilos commits minCommits e he with ⟨kv, hkv, _, rfl⟩
    have hnd := silos_nodup_keys commits
    have hfind := JsMap.find?_of_mem _ kv hnd hkv
    have hcount : siloCount (silosMap commits) kv.1 = kv.2.commits := by
      simp [siloCount, hfind]
    show kv.2.commits = commitsTouching commits kv.1
    rw [← records_eq_commits commits kv.1 h, ← siloCount_map, hcount]

/-- Two commits with duplicate-free path lists. -/
def cleanCommits : List Commit :=
  [⟨"h1", "A", 0, "m", [⟨"a", 1, 0, false⟩, ⟨"b", 2, 0, false⟩]⟩,
   ⟨"h2", "B", -5, "m2", [⟨"a", 3, 1, false⟩]⟩]

/-- Witness for the amended C1 at a concrete input. -/
theorem hotspots_silos_commits_count_witness :
    (∀ e ∈ hotspots cleanCommits 20, e.commits = commitsTouching cleanCommits e.path) ∧
    (∀ e ∈ knowledgeSilos cleanCommits 1,
      e.commits = commitsTouching cleanCommits e.path) :=
  hotspots_silos_commits_count cleanCommits 20 1 (by decide)

/-- C2, counterexample: `codeAge` reads the wall clock (`new Date()`), so
two runs over the identical in-memory commit sequence, made at two
different instants, return different reports: the analysis time is an
input not listed by the claim. -/
theorem codeAge_depends_on_clock :
    codeAge dupPathCommits 0 ≠ codeAge dupPathCommits 40000000000 := by decide

/-- C2, amended: every analyzer is a pure deterministic function of the
commit sequence, its options, **and (for `codeAge` only) the wall-clock
instant of the analysis**: two runs agreeing on those inputs agree on the
output. -/
theorem analyzers_deterministic (c₁ c₂ : List Commit) (now₁ now₂ : Int)
    (top₁ top₂ : Nat) (minC minS : Int) (maxF : Nat)
    (hc : c₁ = c₂) (hn : now₁ = now₂) :
    hotspots c₁ top₁ = hotspots c₂ top₁ ∧
    coupling c₁ top₁ minC maxF = coupling c₂ top₁ minC maxF ∧
    codeAge c₁ now₁ = codeAge c₂ now₂ ∧
    authors c₁ top₂ = authors c₂ top₂ ∧
    knowledgeSilos c₁ minS = knowledgeSilos c₂ minS := by
  subst hc; subst hn; exact ⟨rfl, rfl, rfl, rfl, rfl⟩

/-- Witness for the amended C2 at a concrete input. -/
theorem analyzers_deterministic_witness :
    hotspots cleanCommits 20 = hotspots cleanCommits 20 ∧
    coupling cleanCommits 20 3 30 = coupling cleanCommits 20 3 30 ∧
    codeAge cleanCommits 7 = codeAge cleanCommits 7 ∧
    authors cleanCommits 15 = authors cleanCommits 15 ∧
    knowledgeSilos cleanCommits 2 = knowledgeSilos cleanCommits 2 :=
  analyzers_deterministic cleanCommits cleanCommits 7 7 20 15 3 2 30 rfl rfl

/-- C5: the hotspot list is sorted descending by commit count, ties broken
by descending churn. -/
theorem hotspots_sorted (commits : List Commit) (top : Nat) (i : Nat)
    (h : i + 1 < (hotspots commits top).length) :
    ((hotspots commits top).get ⟨i + 1, h⟩).commits
        ≤ ((hotspots commits top).get ⟨i, Nat.lt_of_succ_lt h⟩).commits ∧
    (((hotspots commits top).get ⟨i, Nat.lt_of_succ_lt h⟩).commits
        = ((hotspots commits top).get ⟨i + 1, h⟩).commits →
      ((hotspots commits top).get ⟨i + 1, h⟩).churn
        ≤ ((hotspots commits top).get ⟨i, Nat.lt_of_succ_lt h⟩).churn) := by
  have hs : List.Sorted hotLe (hotspots commits top) := by
    unfold hotspots
    exact List.Pairwise.sublist (List.take_sublist _ _)
      (List.sorted_insertionSort hotLe _)
  have hrel := hs.rel_get_of_lt
    (a := ⟨i, Nat.lt_of_succ_lt h⟩) (b := ⟨i + 1, h⟩) (by simp [Fin.lt_def])
  unfold hotLe at hrel
  omega

/-- Witness for C5 at a concrete input with two hotspot rows. -/
theorem hotspots_sorted_witness :
    ((hotspots cleanCommits 20).get ⟨1, by decide⟩).commits
        ≤ ((hotspots cleanCommits 20).get ⟨0, by decide⟩).commits ∧
    (((hotspots cleanCommits 20).get ⟨0, by decide⟩).commits
        = ((hotspots cleanCommits 20).get ⟨1, by decide⟩).commits →
      ((hotspots cleanCommits 20).get ⟨1, by decide⟩).churn
        ≤ ((hotspots cleanCommits 20).get ⟨0, by decide⟩).churn) :=
  hotspots_sorted cleanCommits 20 0 (by decide)

/-- C6: `analyzeAll` on the empty commit sequence: zero totals, `null`
date range, empty analyzer lists, all-zero age buckets. -/
theorem analyzeAll_empty (now : Int) :
    analyzeAll [] now =
      ⟨⟨0, 0, none⟩, [], [], ⟨⟨0, 0, 0, 0, 0⟩, [], [], 0⟩, [], []⟩ := rfl

theorem bucketsStep_sum (files : List AgeEntry) :
    ∀ b : AgeBuckets,
      (files.foldl bucketsStep b).fresh + (files.foldl bucketsStep b).recent +
        (files.foldl bucketsStep b).aging + (files.foldl bucketsStep b).stale +
        (files.foldl bucketsStep b).ancient
      = b.fresh + b.recent + b.aging + b.stale + b.ancient + files.length := by
  induction files with
  | nil => intro b; simp
  | cons f fs ih =>
    intro b
    rw [List.foldl_cons, ih]
    unfold bucketsStep
    split_ifs <;> simp <;> omega

/-- C8: the five code-age bucket counts sum to `totalFiles`: every distinct
path ever touched lands in exactly one bucket. -/
theorem codeAge_buckets_sum (commits : List Commit) (now : Int) :
    (codeAge commits now).buckets.fresh + (codeAge commits now).buckets.recent +
      (codeAge commits now).buckets.aging + (codeAge commits now).buckets.stale +
      (codeAge commits now).buckets.ancient = (codeAge commits now).totalFiles := by
  have h := bucketsStep_sum (codeAgeFiles commits now) ⟨0, 0, 0, 0, 0⟩
  simp only [codeAge]
  simpa using h

/-- C10: within one result list, keys are unique — each path occurs at most
once in `hotspots` and in `knowledgeSilos`, each author name at most once
in `authors`. -/
theorem output_keys_unique (commits : List Commit) (top₁ top₂ : Nat) (minC : Int) :
    ((hotspots commits top₁).map HotspotEntry.path).Nodup ∧
    ((knowledgeSilos commits minC).map SiloEntry.path).Nodup ∧
    ((authors commits top₂).map AuthorEntry.name).Nodup := by
  refine ⟨?_, ?_, ?_⟩
  · unfold hotspots
    apply nodup_map_take_sort
    rw [List.map_map]
    have he : ((hotspotsMap commits).map fun kv =>
        (⟨kv.2.path, kv.2.commits, kv.2.added + kv.2.deleted, kv.2.added,
          kv.2.deleted, kv.2.authors.length⟩ : HotspotEntry).path)
        = (hotspotsMap commits).map Prod.fst := by
      refine List.map_congr_left ?_
      intro kv hkv
      exact (hotWF_map commits).2 kv hkv
    rw [show (HotspotEntry.path ∘ fun kv : String × HotAcc =>
        (⟨kv.2.path, kv.2.commits, kv.2.added + kv.2.deleted, kv.2.added,
          kv.2.deleted, kv.2.authors.length⟩ : HotspotEntry))
        = fun kv : String × HotAcc => kv.2.path from rfl]
    rw [show ((hotspotsMap commits).map fun kv : String × HotAcc => kv.2.path)
        = (hotspotsMap commits).map Prod.fst from he]
    exact (hotWF_map commits).1
  · unfold knowledgeSilos
    apply nodup_map_take_sort
    exact List.Sublist.nodup (silosList_paths_sublist commits minC)
      (silos_nodup_keys commits)
  · unfold authors
    apply nodup_map_take_sort
    rw [List.map_map]
    have he : ((commits.foldl authorsStep []).map fun kv =>
        (⟨kv.2.name, kv.2.commits, kv.2.added, kv.2.deleted,
          kv.2.files.length⟩ : AuthorEntry).name)
        = (commits.foldl authorsStep []).map Prod.fst := by
      refine List.map_congr_left ?_
      intro kv hkv
      exact (authWF_map commits).2 kv hkv
    rw [show (AuthorEntry.name ∘ fun kv : String × AuthAcc =>
        (⟨kv.2.name, kv.2.commits, kv.2.added, kv.2.deleted,
          kv.2.files.length⟩ : AuthorEntry))
        = fun kv : String × AuthAcc => kv.2.name from rfl]
    rw [show ((commits.foldl authorsStep []).map fun kv : String × AuthAcc => kv.2.name)
        = (commits.foldl authorsStep []).map Prod.fst from he]
    exact (authWF_map commits).1

/-! ## Support lemmas: the silo author sets (C4) -/

/-- The author set stored for `p` in the silo map (empty when absent). -/
def siloAuthors (m : JsMap SiloAcc) (p : String) : List String :=
  ((JsMap.find? m p).map SiloAcc.authors).getD []

theorem siloAuthors_fileStep (a : String) (m : JsMap SiloAcc) (f : FileChange)
    (p : String) :
    siloAuthors (silosFileStep a m f) p
      = if f.path = p then JsSet.add (siloAuthors m p) a else siloAuthors m p := by
  simp only [siloAuthors, silosFileStep]
  rw [JsMap.find?_set]
  by_cases h : f.path = p
  · subst h
    cases hm : JsMap.find? m f.path <;> simp [hm, JsSet.add]
  · simp [h]

theorem siloAuthors_foldFiles (a x : String) (p : String) :
    ∀ (fs : List FileChange) (m : JsMap SiloAcc),
      x ∈ siloAuthors (fs.foldl (silosFileStep a) m) p
        ↔ x ∈ siloAuthors m p ∨ (x = a ∧ fs.any (fun f => f.path == p)) := by
  intro fs
  induction fs with
  | nil => simp
  | cons f fs ih =>
    intro m
    rw [List.foldl_cons, ih, siloAuthors_fileStep, List.any_cons]
    by_cases h : f.path = p
    · have hb : (f.path == p) = true := by simpa using h
      simp only [if_pos h, hb, JsSet.mem_add, Bool.true_or, and_true]
      tauto
    · have hb : (f.path == p) = false := by simpa using h
      simp only [if_neg h, hb, Bool.false_or]

theorem siloAuthors_mem (commits : List Commit) (p x : String) :
    x ∈ siloAuthors (silosMap commits) p
      ↔ ∃ c ∈ commits, c.author = x ∧ touches c p = true := by
  unfold silosMap
  suffices h : ∀ (l : List Commit) (m : JsMap SiloAcc),
      x ∈ siloAuthors (l.foldl silosStep m) p
        ↔ x ∈ siloAuthors m p ∨ ∃ c ∈ l, c.author = x ∧ touches c p = true by
    have h0 : siloAuthors ([] : JsMap SiloAcc) p = [] := rfl
    simpa [h0] using h commits []
  intro l
  induction l with
  | nil => simp
  | cons c l ih =>
    intro m
    rw [List.foldl_cons, ih]
    unfold silosStep
    rw [siloAuthors_foldFiles]
    unfold touches
    constructor
    · rintro ((hx | hx) | hx)
      · exact Or.inl hx
      · exact Or.inr ⟨c, List.mem_cons_self c l, hx.1.symm, hx.2⟩
      · rcases hx with ⟨c', hc', hx⟩
        exact Or.inr ⟨c', List.mem_cons_of_mem _ hc', hx⟩
    · rintro (hx | ⟨c', hc', hx⟩)
      · exact Or.inl (Or.inl hx)
      · rcases List.mem_cons.mp hc' with h | h
        · subst h; exact Or.inl (Or.inr ⟨hx.1.symm, hx.2⟩)
        · exact Or.inr ⟨c', h, hx⟩

theorem siloAuthors_nodup (commits : List Commit) (p : String) :
    (siloAuthors (silosMap commits) p).Nodup := by
  unfold silosMap
  refine foldl_inv silosStep (fun m => ∀ q, (siloAuthors m q).Nodup) ?_ commits []
    (fun q => List.nodup_nil) p
  intro m c hm
  unfold silosStep
  refine foldl_inv (silosFileStep c.author) (fun m => ∀ q, (siloAuthors m q).Nodup)
    ?_ c.files m hm
  intro m f hm q
  rw [siloAuthors_fileStep]
  by_cases h : f.path = q
  · rw [if_pos h]; exact JsSet.nodup_add _ _ (hm q)
  · rw [if_neg h]; exact hm q

/-- Raising the silo threshold filters the unsorted silo list. -/
theorem silosList_filter (commits : List Commit) (m₁ m₂ : Int) (h : m₁ ≤ m₂) :
    silosList commits m₂
      = (silosList commits m₁).filter fun e => decide (m₂ ≤ (e.commits : Int)) := by
  unfold silosList
  generalize silosMap commits = M
  induction M with
  | nil => simp
  | cons kv M ih =>
    by_cases h1 : kv.2.authors.length = 1
    · by_cases hb2 : m₂ ≤ (kv.2.commits : Int)
      · have hb1 : m₁ ≤ (kv.2.commits : Int) := le_trans h hb2
        have hf : (fun e : SiloEntry => decide (m₂ ≤ (e.commits : Int)))
            (⟨kv.1, kv.2.authors.headD "", kv.2.commits⟩ : SiloEntry) = true :=
          decide_eq_true hb2
        rw [List.filterMap_cons_some (siloEntryOf_pos m₂ kv ⟨h1, hb2⟩),
          List.filterMap_cons_some (siloEntryOf_pos m₁ kv ⟨h1, hb1⟩),
          @List.filter_cons_of_pos SiloEntry
            (fun e => decide (m₂ ≤ (e.commits : Int)))
            ⟨kv.1, kv.2.authors.headD "", kv.2.commits⟩
            (List.filterMap (siloEntryOf m₁) M) hf, ih]
      · by_cases hb1 : m₁ ≤ (kv.2.commits : Int)
        · have hf : ¬ (fun e : SiloEntry => decide (m₂ ≤ (e.commits : Int)))
              (⟨kv.1, kv.2.authors.headD "", kv.2.commits⟩ : SiloEntry) = true :=
            fun hd => hb2 (of_decide_eq_true hd)
          rw [List.filterMap_cons_none (siloEntryOf_neg m₂ kv (fun hc => hb2 hc.2)),
            List.filterMap_cons_some (siloEntryOf_pos m₁ kv ⟨h1, hb1⟩),
            @List.filter_cons_of_neg SiloEntry
              (fun e => decide (m₂ ≤ (e.commits : Int)))
              ⟨kv.1, kv.2.authors.headD "", kv.2.commits⟩
              (List.filterMap (siloEntryOf m₁) M) hf, ih]
        · rw [List.filterMap_cons_none (siloEntryOf_neg m₂ kv (fun hc => hb2 hc.2)),
            List.filterMap_cons_none (siloEntryOf_neg m₁ kv (fun hc => hb1 hc.2)), ih]
    · rw [List.filterMap_cons_none (siloEntryOf_neg m₂ kv (fun hc => h1 hc.1)),
        List.filterMap_cons_none (siloEntryOf_neg m₁ kv (fun hc => h1 hc.1)), ih]

/-- Inserting an element that precedes every element of `v`. -/
theorem orderedInsert_append_right {α : Type} (r : α → α → Prop) [DecidableRel r]
    (x : α) (u v : List α) (h : ∀ b ∈ v, r x b) :
    List.orderedInsert r x (u ++ v) = List.orderedInsert r x u ++ v := by
  induction u with
  | nil =>
    cases v with
    | nil => simp
    | cons b v' =>
      simp only [List.nil_append, List.orderedInsert,
        if_pos (h b (List.mem_cons_self b v'))]
      rfl
  | cons c u ih =>
    simp only [List.cons_append, List.orderedInsert, List.append_eq]
    by_cases hc : r x c
    · simp [hc]
    · simp only [if_neg hc, ih]
      rfl

/-- Inserting an element that follows every element of `u`. -/
theorem orderedInsert_append_left {α : Type} (r : α → α → Prop) [DecidableRel r]
    (x : α) (u v : List α) (h : ∀ b ∈ u, ¬ r x b) :
    List.orderedInsert r x (u ++ v) = u ++ List.orderedInsert r x v := by
  induction u with
  | nil => simp
  | cons c u ih =>
    simp only [List.cons_append, List.orderedInsert, List.append_eq,
      if_neg (h c (List.mem_cons_self c u))]
    rw [ih (fun b hb => h b (List.mem_cons_of_mem _ hb))]

/-- A stable sort of a list whose `p`-elements strictly precede its
non-`p`-elements splits into the sorted `p`-part followed by the sorted
rest. -/
theorem insertionSort_split {α : Type} (r : α → α → Prop) [DecidableRel r]
    (p : α → Prop) [DecidablePred p]
    (sep : ∀ x y, p x → ¬ p y → r x y ∧ ¬ r y x) :
    ∀ l : List α,
      List.insertionSort r l
        = List.insertionSort r (l.filter fun a => decide (p a))
          ++ List.insertionSort r (l.filter fun a => decide (¬ p a)) := by
  intro l
  induction l with
  | nil => simp
  | cons x l ih =>
    simp only [List.insertionSort]
    rw [ih]
    by_cases hx : p x
    · have hv : ∀ b ∈ List.insertionSort r (l.filter fun a => decide (¬ p a)),
          r x b := by
        intro b hb
        have hbmem := (List.perm_insertionSort r _).mem_iff.mp hb
        exact (sep x b hx (by simpa using (List.mem_filter.mp hbmem).2)).1
      rw [orderedInsert_append_right r x _ _ hv]
      have h1 : (x :: l).filter (fun a => decide (p a))
          = x :: l.filter (fun a => decide (p a)) := by
        simp [List.filter_cons, hx]
      have h2 : (x :: l).filter (fun a => decide (¬ p a))
          = l.filter (fun a => decide (¬ p a)) := by
        simp [List.filter_cons, hx]
      rw [h1, h2]
      rfl
    · have hu : ∀ b ∈ List.insertionSort r (l.filter fun a => decide (p a)),
          ¬ r x b := by
        intro b hb
        have hbmem := (List.perm_insertionSort r _).mem_iff.mp hb
        exact (sep b x (by simpa using (List.mem_filter.mp hbmem).2) hx).2
      rw [orderedInsert_append_left r x _ _ hu]
      have h1 : (x :: l).filter (fun a => decide (p a))
          = l.filter (fun a => decide (p a)) := by
        simp [List.filter_cons, hx]
      have h2 : (x :: l).filter (fun a => decide (¬ p a))
          = x :: l.filter (fun a => decide (¬ p a)) := by
        simp [List.filter_cons, hx]
      rw [h1, h2]
      rfl

theorem mem_take_append {α : Type} (x : α) (n : Nat) (u v : List α)
    (h : x ∈ u.take n) : x ∈ (u ++ v).take n := by
  rw [List.take_append_eq_append_take]
  exact List.mem_append_left _ h

/-- C4: every silo row's path was touched by exactly one distinct author
over the whole sequence — the row's `author` — with count meeting the
threshold; and raising `minCommits` shrinks or preserves the returned set,
even with the fixed 30-row output cap. -/
theorem knowledgeSilos_single_author_mono (commits : List Commit)
    (minCommits m₁ m₂ : Int) (hm : m₁ ≤ m₂) :
    (∀ e ∈ knowledgeSilos commits minCommits,
      (∀ a, (∃ c ∈ commits, c.author = a ∧ touches c e.path = true)
        ↔ a = e.author) ∧
      minCommits ≤ (e.commits : Int)) ∧
    (∀ e ∈ knowledgeSilos commits m₂, e ∈ knowledgeSilos commits m₁) := by
  constructor
  · intro e he
    rcases mem_knowledgeSilos commits minCommits e he with ⟨kv, hkv, hc, rfl⟩
    refine ⟨?_, hc.2⟩
    intro a
    have hfind := JsMap.find?_of_mem _ kv (silos_nodup_keys commits) hkv
    have hsa : siloAuthors (silosMap commits) kv.1 = kv.2.authors := by
      simp [siloAuthors, hfind]
    obtain ⟨a₀, ha₀⟩ := List.length_eq_one.mp hc.1
    have hmem := siloAuthors_mem commits kv.1 a
    rw [hsa, ha₀] at hmem
    show (∃ c ∈ commits, c.author = a ∧ touches c kv.1 = true)
      ↔ a = kv.2.authors.headD ""
    constructor
    · intro hex
      have h3 : a ∈ [a₀] := hmem.mpr hex
      have h4 : a = a₀ := List.mem_singleton.mp h3
      simp [ha₀, h4]
    · intro heq
      have h4 : a = a₀ := by simpa [ha₀] using heq
      exact hmem.mp (by simp [h4])
  · intro e he
    unfold knowledgeSilos at he ⊢
    rw [silosList_filter commits m₁ m₂ hm] at he
    have hsep : ∀ x y : SiloEntry, (m₂ ≤ (x.commits : Int))
        → ¬ (m₂ ≤ (y.commits : Int)) → siloLe x y ∧ ¬ siloLe y x := by
      intro x y hx hy
      unfold siloLe
      omega
    rw [insertionSort_split siloLe (fun e => m₂ ≤ (e.commits : Int)) hsep
      (silosList commits m₁)]
    exact mem_take_append e 30 _ _ he

/-- Witness for C4 at a concrete input and thresholds. -/
theorem knowledgeSilos_single_author_mono_witness :
    (∀ e ∈ knowledgeSilos cleanCommits 1,
      (∀ a, (∃ c ∈ cleanCommits, c.author = a ∧ touches c e.path = true)
        ↔ a = e.author) ∧
      (1 : Int) ≤ (e.commits : Int)) ∧
    (∀ e ∈ knowledgeSilos cleanCommits 2, e ∈ knowledgeSilos cleanCommits 1) :=
  knowledgeSilos_single_author_mono cleanCommits 1 1 2 (by decide)

/-! ## Support lemmas: the composite pair key and its split (C3, C7, C9) -/

theorem jsSplit3_cons_ne (acc : List Char) (ch : Char) (s : List Char) (h : ch ≠ ':') :
    jsSplit3 acc (ch :: s) = jsSplit3 (ch :: acc) s := by
  rw [jsSplit3.eq_def]
  split
  case h_1 x rest heq =>
    injection heq with h1 _
    exact absurd h1 h
  case h_2 x c2 cs hnm heq =>
    injection heq with h1 h2
    subst h1
    subst h2
    rfl
  case h_3 x heq => cases heq

theorem jsSplit3_noColon (a : List Char) : ∀ (acc : List Char),
    (∀ ch ∈ a, ch ≠ ':') → jsSplit3 acc a = [acc.reverse ++ a] := by
  induction a with
  | nil => intro acc _; simp [jsSplit3]
  | cons ch a ih =>
    intro acc h
    rw [jsSplit3_cons_ne acc ch a (h ch (List.mem_cons_self ch a)),
      ih (ch :: acc) (fun c hc => h c (List.mem_cons_of_mem _ hc))]
    simp

theorem jsSplit3_sep (a : List Char) : ∀ (acc b : List Char),
    (∀ ch ∈ a, ch ≠ ':') →
    jsSplit3 acc (a ++ ':' :: ':' :: ':' :: b)
      = (acc.reverse ++ a) :: jsSplit3 [] b := by
  induction a with
  | nil => intro acc b _; simp [jsSplit3]
  | cons ch a ih =>
    intro acc b h
    rw [List.cons_append,
      jsSplit3_cons_ne acc ch _ (h ch (List.mem_cons_self ch a)),
      ih (ch :: acc) b (fun c hc => h c (List.mem_cons_of_mem _ hc))]
    simp

theorem colonFree_chars (s : String) (h : colonFree s = true) :
    ∀ ch ∈ s.data, ch ≠ ':' := by
  intro ch hch
  have := List.all_eq_true.mp h ch hch
  simpa using this

theorem splitKey_sep (p q : String) (hp : colonFree p = true)
    (hq : colonFree q = true) :
    splitKey (p ++ ":::" ++ q) = [p, q] := by
  unfold splitKey
  have hdata : (p ++ ":::" ++ q).data = p.data ++ ':' :: ':' :: ':' :: q.data := by
    have h3 : (":::" : String).data = [':', ':', ':'] := by decide
    rw [String.data_append, String.data_append, h3, List.append_assoc]
    rfl
  rw [hdata, jsSplit3_sep p.data [] q.data (colonFree_chars p hp),
    jsSplit3_noColon q.data [] (colonFree_chars q hq)]
  rfl

theorem pairKey_inj (p q p' q' : String) (hp : colonFree p = true)
    (hq : colonFree q = true) (hp' : colonFree p' = true)
    (hq' : colonFree q' = true)
    (h : p ++ ":::" ++ q = p' ++ ":::" ++ q') : p = p' ∧ q = q' := by
  have h2 := congrArg splitKey h
  rw [splitKey_sep p q hp hq, splitKey_sep p' q' hp' hq'] at h2
  injection h2 with h3 h4
  injection h4 with h5 _
  exact ⟨h3, h5⟩

theorem pairKeys_mem (P : List String) :
    ∀ k ∈ pairKeys P, ∃ p q, p ∈ P ∧ q ∈ P ∧ k = p ++ ":::" ++ q := by
  induction P with
  | nil => intro k hk; cases hk
  | cons p rest ih =>
    intro k hk
    rw [pairKeys] at hk
    rcases List.mem_append.mp hk with hk | hk
    · rcases List.mem_map.mp hk with ⟨q, hq, rfl⟩
      exact ⟨p, q, List.mem_cons_self _ _, List.mem_cons_of_mem _ hq, rfl⟩
    · rcases ih k hk with ⟨p', q', hp', hq', rfl⟩
      exact ⟨p', q', List.mem_cons_of_mem _ hp', List.mem_cons_of_mem _ hq', rfl⟩

theorem pairKeys_mem_lt (P : List String) (hso : List.Pairwise (· < ·) P) :
    ∀ k ∈ pairKeys P, ∃ p q, p ∈ P ∧ q ∈ P ∧ p < q ∧ k = p ++ ":::" ++ q := by
  induction P with
  | nil => intro k hk; cases hk
  | cons p rest ih =>
    intro k hk
    rw [pairKeys] at hk
    rcases List.mem_append.mp hk with hk | hk
    · rcases List.mem_map.mp hk with ⟨q, hq, rfl⟩
      exact ⟨p, q, List.mem_cons_self _ _, List.mem_cons_of_mem _ hq,
        (List.pairwise_cons.mp hso).1 q hq, rfl⟩
    · rcases ih (List.pairwise_cons.mp hso).2 k hk with ⟨p', q', hp', hq', hlt, rfl⟩
      exact ⟨p', q', List.mem_cons_of_mem _ hp', List.mem_cons_of_mem _ hq', hlt, rfl⟩

theorem mem_pairKeys (P : List String) (p q : String) (hso : List.Pairwise (· < ·) P)
    (hp : p ∈ P) (hq : q ∈ P) (hlt : p < q) :
    p ++ ":::" ++ q ∈ pairKeys P := by
  induction P with
  | nil => cases hp
  | cons x rest ih =>
    rw [pairKeys]
    have hso' := List.pairwise_cons.mp hso
    rcases List.mem_cons.mp hp with hpx | hp'
    · subst hpx
      have hq' : q ∈ rest := by
        rcases List.mem_cons.mp hq with hqx | hq'
        · exact absurd (hqx ▸ hlt) (lt_irrefl _)
        · exact hq'
      exact List.mem_append_left _ (List.mem_map_of_mem _ hq')
    · have hq' : q ∈ rest := by
        rcases List.mem_cons.mp hq with hqx | hq'
        · subst hqx
          exact absurd (lt_trans (hso'.1 p hp') hlt) (lt_irrefl _)
        · exact hq'
      exact List.mem_append_right _ (ih hso'.2 hp' hq')

theorem pairKeys_nodup (P : List String) (hnd : P.Nodup)
    (hcf : ∀ p ∈ P, colonFree p = true) : (pairKeys P).Nodup := by
  induction P with
  | nil => exact List.nodup_nil
  | cons p rest ih =>
    rw [pairKeys]
    have hnd' := List.nodup_cons.mp hnd
    have hcf' : ∀ x ∈ rest, colonFree x = true :=
      fun x hx => hcf x (List.mem_cons_of_mem _ hx)
    have hcfp : colonFree p = true := hcf p (List.mem_cons_self _ _)
    rw [List.nodup_append]
    refine ⟨?_, ih hnd'.2 hcf', ?_⟩
    · refine List.Nodup.map_on ?_ hnd'.2
      intro x hx y hy hxy
      exact (pairKey_inj p x p y hcfp (hcf' x hx) hcfp (hcf' y hy) hxy).2
    · intro k hk1 hk2
      rcases List.mem_map.mp hk1 with ⟨q, hq, rfl⟩
      rcases pairKeys_mem rest _ hk2 with ⟨p', q', hp', hq', hkey⟩
      have h5 := (pairKey_inj p q p' q' hcfp (hcf' q hq) (hcf' p' hp')
        (hcf' q' hq') hkey).1
      exact hnd'.1 (h5 ▸ hp')

/-! ## Support lemmas: distinct paths and counters (coupling) -/

theorem charListLt_lex : ∀ (as bs : List Char),
    charListLt as bs = true ↔ List.Lex (· < ·) as bs := by
  intro as
  induction as with
  | nil =>
    intro bs
    cases bs with
    | nil =>
      constructor
      · intro h; cases h
      · intro h; cases h
    | cons b bs =>
      constructor
      · intro _; exact List.Lex.nil
      · intro _; rfl
  | cons a as ih =>
    intro bs
    cases bs with
    | nil =>
      constructor
      · intro h; cases h
      · intro h; cases h
    | cons b bs =>
      simp only [charListLt]
      by_cases h1 : a < b
      · simp only [if_pos h1]
        constructor
        · intro _; exact List.Lex.rel h1
        · intro _; trivial
      · by_cases h2 : b < a
        · simp only [if_neg h1, if_pos h2]
          constructor
          · intro h; cases h
          · intro h
            cases h with
            | cons htl => exact absurd h2 (lt_irrefl a)
            | rel hr => exact absurd hr h1
        · have hab : a = b := le_antisymm (not_lt.mp h2) (not_lt.mp h1)
          subst hab
          simp only [if_neg h1, if_neg h2]
          rw [ih bs]
          constructor
          · exact List.Lex.cons
          · intro h
            cases h with
            | cons htl => exact htl
            | rel hr => exact absurd hr h1

theorem strLt_iff (a b : String) : charListLt a.data b.data = true ↔ a < b := by
  rw [String.lt_iff_toList_lt]
  exact charListLt_lex a.data b.data

theorem strLeb_iff (a b : String) : strLeb a b = true ↔ a ≤ b := by
  unfold strLeb
  rw [Bool.not_eq_true']
  constructor
  · intro h
    rw [← not_lt]
    intro hlt
    have h2 := (strLt_iff b a).mpr hlt
    rw [h] at h2
    cases h2
  · intro h
    cases hcl : charListLt b.data a.data
    · rfl
    · exact absurd ((strLt_iff b a).mp hcl) (not_lt.mpr h)

instance : IsTotal String (fun a b => strLeb a b = true) :=
  ⟨fun a b => by
    rcases le_total a b with h | h
    · exact Or.inl ((strLeb_iff a b).mpr h)
    · exact Or.inr ((strLeb_iff b a).mpr h)⟩

instance : IsTrans String (fun a b => strLeb a b = true) :=
  ⟨fun a b c hab hbc =>
    (strLeb_iff a c).mpr (le_trans ((strLeb_iff a b).mp hab) ((strLeb_iff b c).mp hbc))⟩

theorem distinctPaths_sorted (c : Commit) :
    List.Sorted (· ≤ ·) (distinctPaths c) := by
  have h := List.sorted_insertionSort (fun a b => strLeb a b = true)
    (c.files.map FileChange.path).dedup
  exact h.imp fun hab => (strLeb_iff _ _).mp hab

theorem distinctPaths_nodup (c : Commit) : (distinctPaths c).Nodup :=
  (List.perm_insertionSort _ _).nodup_iff.mpr (List.nodup_dedup _)

theorem distinctPaths_sorted_lt (c : Commit) :
    List.Sorted (· < ·) (distinctPaths c) :=
  List.Sorted.lt_of_le (distinctPaths_sorted c) (distinctPaths_nodup c)

theorem mem_distinctPaths (c : Commit) (p : String) :
    p ∈ distinctPaths c ↔ p ∈ c.files.map FileChange.path := by
  unfold distinctPaths
  rw [(List.perm_insertionSort _ _).mem_iff, List.mem_dedup]

theorem touches_of_mem_distinctPaths (c : Commit) (p : String)
    (h : p ∈ distinctPaths c) : touches c p = true := by
  rcases List.mem_map.mp ((mem_distinctPaths c p).mp h) with ⟨f, hf, rfl⟩
  unfold touches
  rw [List.any_eq_true]
  exact ⟨f, hf, by simp⟩

/-- The counter stored for `k` (0 when absent). -/
def countOf (m : JsMap Nat) (k : String) : Nat := (JsMap.find? m k).getD 0

theorem countOf_bumpAll (ks : List String) : ∀ (m : JsMap Nat) (k : String),
    countOf (bumpAll m ks) k = countOf m k + ks.count k := by
  induction ks with
  | nil => intro m k; simp [bumpAll]
  | cons k' ks ih =>
    intro m k
    have hstep : bumpAll m (k' :: ks)
        = bumpAll (JsMap.set m k' ((JsMap.find? m k').getD 0 + 1)) ks := rfl
    rw [hstep, ih]
    have hset : countOf (JsMap.set m k' ((JsMap.find? m k').getD 0 + 1)) k
        = countOf m k + (if k' = k then 1 else 0) := by
      unfold countOf
      rw [JsMap.find?_set]
      by_cases h : k' = k
      · subst h
        cases hm : JsMap.find? m k' <;> simp [hm]
      · simp [h]
    rw [hset, List.count_cons]
    by_cases h : k' = k
    · subst h
      rw [if_pos rfl, if_pos (by simp : (k' == k') = true)]
      omega
    · rw [if_neg h, if_neg (by simp [h] : ¬ ((k' == k) = true))]
      omega

theorem find?_bumpAll_not_mem (ks : List String) : ∀ (m : JsMap Nat) (k : String),
    k ∉ ks → JsMap.find? (bumpAll m ks) k = JsMap.find? m k := by
  induction ks with
  | nil => intro m k _; rfl
  | cons k' ks ih =>
    intro m k hk
    have hstep : bumpAll m (k' :: ks)
        = bumpAll (JsMap.set m k' ((JsMap.find? m k').getD 0 + 1)) ks := rfl
    rw [hstep, ih _ _ (fun h => hk (List.mem_cons_of_mem _ h)), JsMap.find?_set,
      if_neg (fun h => hk (by rw [← h]; exact List.mem_cons_self _ _))]

theorem bumpAll_nodup_keys (ks : List String) : ∀ (m : JsMap Nat),
    (m.map Prod.fst).Nodup → ((bumpAll m ks).map Prod.fst).Nodup := by
  induction ks with
  | nil => intro m h; exact h
  | cons k' ks ih =>
    intro m h
    exact ih _ (JsMap.nodup_keys_set _ _ _ h)

theorem couplingStep_skip (maxF : Nat) (st : JsMap Nat × JsMap Nat) (c : Commit)
    (h : (distinctPaths c).length < 2 ∨ maxF < (distinctPaths c).length) :
    couplingStep maxF st c = st := by
  simp only [couplingStep]
  rw [if_pos h]

theorem couplingStep_go (maxF : Nat) (st : JsMap Nat × JsMap Nat) (c : Commit)
    (h2 : 2 ≤ (distinctPaths c).length) (h3 : (distinctPaths c).length ≤ maxF) :
    couplingStep maxF st c
      = (bumpAll st.1 (pairKeys (distinctPaths c)),
         bumpAll st.2 (distinctPaths c)) := by
  simp only [couplingStep]
  rw [if_neg (by omega)]

theorem couplingState_nodup_keys (commits : List Commit) (maxF : Nat) :
    (((couplingState commits maxF).1.map Prod.fst).Nodup) ∧
    (((couplingState commits maxF).2.map Prod.fst).Nodup) := by
  unfold couplingState
  refine foldl_inv (couplingStep maxF)
    (fun st => ((st.1.map Prod.fst).Nodup) ∧ ((st.2.map Prod.fst).Nodup))
    ?_ commits ([], []) ⟨List.nodup_nil, List.nodup_nil⟩
  intro st c h
  by_cases hc : (distinctPaths c).length < 2 ∨ maxF < (distinctPaths c).length
  · rw [couplingStep_skip maxF st c hc]
    exact h
  · rw [couplingStep_go maxF st c (by omega) (by omega)]
    exact ⟨bumpAll_nodup_keys _ _ h.1, bumpAll_nodup_keys _ _ h.2⟩

/-- A commit qualifies for coupling: at least 2 and at most
`maxFilesPerCommit` distinct paths. -/
def qualifies (maxF : Nat) (c : Commit) : Prop :=
  2 ≤ (distinctPaths c).length ∧ (distinctPaths c).length ≤ maxF

/-- Invariant of the coupling fold (under colon-free paths): every entry of
the `pairs` map is keyed by `p:::q` for co-occurring paths `p < q`, has a
positive count bounded by both per-path counters, and is witnessed by a
qualifying commit. -/
def GoodPairs (maxF : Nat) (W : Commit → Prop) (st : JsMap Nat × JsMap Nat) : Prop :=
  ∀ k n, JsMap.find? st.1 k = some n →
    ∃ p q, p < q ∧ colonFree p = true ∧ colonFree q = true ∧
      k = p ++ ":::" ++ q ∧ 1 ≤ n ∧ n ≤ countOf st.2 p ∧ n ≤ countOf st.2 q ∧
      ∃ c, W c ∧ qualifies maxF c ∧ touches c p = true ∧ touches c q = true

theorem goodPairs_step (maxF : Nat) (W : Commit → Prop) (st : JsMap Nat × JsMap Nat)
    (c : Commit) (hW : W c) (hcf : ∀ f ∈ c.files, colonFree f.path = true)
    (hst : GoodPairs maxF W st) : GoodPairs maxF W (couplingStep maxF st c) := by
  by_cases hq : (distinctPaths c).length < 2 ∨ maxF < (distinctPaths c).length
  · rw [couplingStep_skip maxF st c hq]
    exact hst
  · rw [couplingStep_go maxF st c (by omega) (by omega)]
    have hPcf : ∀ p ∈ distinctPaths c, colonFree p = true := by
      intro p hp
      rcases List.mem_map.mp ((mem_distinctPaths c p).mp hp) with ⟨f, hf, rfl⟩
      exact hcf f hf
    have hPnd := distinctPaths_nodup c
    have hPlt := distinctPaths_sorted_lt c
    intro k n hfind
    by_cases hk : k ∈ pairKeys (distinctPaths c)
    · rcases pairKeys_mem_lt _ hPlt k hk with ⟨p, q, hp, hq2, hlt, rfl⟩
      have hcnt1 : (pairKeys (distinctPaths c)).count (p ++ ":::" ++ q) = 1 :=
        List.count_eq_one_of_mem (pairKeys_nodup _ hPnd hPcf) hk
      have hbump := countOf_bumpAll (pairKeys (distinctPaths c)) st.1 (p ++ ":::" ++ q)
      rw [hcnt1] at hbump
      have hcn : countOf (bumpAll st.1 (pairKeys (distinctPaths c)))
          (p ++ ":::" ++ q) = n := by
        simp [countOf, hfind]
      have hn : n = countOf st.1 (p ++ ":::" ++ q) + 1 := by omega
      have hcp : countOf (bumpAll st.2 (distinctPaths c)) p
          = countOf st.2 p + 1 := by
        rw [countOf_bumpAll, List.count_eq_one_of_mem hPnd hp]
      have hcq : countOf (bumpAll st.2 (distinctPaths c)) q
          = countOf st.2 q + 1 := by
        rw [countOf_bumpAll, List.count_eq_one_of_mem hPnd hq2]
      have hbound : countOf st.1 (p ++ ":::" ++ q) ≤ countOf st.2 p ∧
          countOf st.1 (p ++ ":::" ++ q) ≤ countOf st.2 q := by
        cases hold : JsMap.find? st.1 (p ++ ":::" ++ q) with
        | none => simp [countOf, hold]
        | some n₀ =>
          rcases hst _ _ hold with
            ⟨p', q', _, hcf1, hcf2, hkey, _, hb1, hb2, _⟩
          rcases pairKey_inj p q p' q' (hPcf p hp) (hPcf q hq2) hcf1 hcf2 hkey
            with ⟨rfl, rfl⟩
          simp only [countOf, hold, Option.getD_some]
          exact ⟨hb1, hb2⟩
      refine ⟨p, q, hlt, hPcf p hp, hPcf q hq2, rfl, by omega, ?_, ?_,
        c, hW, ⟨by omega, by omega⟩,
        touches_of_mem_distinctPaths c p hp,
        touches_of_mem_distinctPaths c q hq2⟩
      · rw [hcp]; omega
      · rw [hcq]; omega
    · rw [find?_bumpAll_not_mem _ st.1 k hk] at hfind
      rcases hst k n hfind with
        ⟨p, q, hlt, hc1, hc2, hkey, h1, hb1, hb2, c', hWc', hq', ht1, ht2⟩
      refine ⟨p, q, hlt, hc1, hc2, hkey, h1, ?_, ?_, c', hWc', hq', ht1, ht2⟩
      · show n ≤ countOf (bumpAll st.2 (distinctPaths c)) p
        have := countOf_bumpAll (distinctPaths c) st.2 p
        omega
      · show n ≤ countOf (bumpAll st.2 (distinctPaths c)) q
        have := countOf_bumpAll (distinctPaths c) st.2 q
        omega

theorem goodPairs_state (commits : List Commit) (maxF : Nat)
    (hcf : pathsColonFree commits) :
    GoodPairs maxF (fun c => c ∈ commits) (couplingState commits maxF) := by
  unfold couplingState
  suffices h : ∀ (l : List Commit) (st : JsMap Nat × JsMap Nat),
      (∀ c ∈ l, c ∈ commits ∧ ∀ f ∈ c.files, colonFree f.path = true) →
      GoodPairs maxF (fun c => c ∈ commits) st →
      GoodPairs maxF (fun c => c ∈ commits) (l.foldl (couplingStep maxF) st) by
    refine h commits ([], []) (fun c hc => ⟨hc, hcf c hc⟩) ?_
    intro k n hfind
    cases hfind
  intro l
  induction l with
  | nil => intro st _ hst; exact hst
  | cons c l ih =>
    intro st hl hst
    rw [List.foldl_cons]
    refine ih _ (fun c' hc' => hl c' (List.mem_cons_of_mem _ hc')) ?_
    exact goodPairs_step maxF _ st c (hl c (List.mem_cons_self _ _)).1
      (hl c (List.mem_cons_self _ _)).2 hst

/-- Every coupling result row comes from a pairs-map entry passing the
`minCommits` filter. -/
theorem mem_coupling (commits : List Commit) (top : Nat) (minCommits : Int)
    (maxF : Nat) (e : CouplingPair)
    (he : e ∈ coupling commits top minCommits maxF) :
    ∃ kv ∈ (couplingState commits maxF).1, minCommits ≤ (kv.2 : Int) ∧
      e = ⟨(splitKey kv.1).headD "", ((splitKey kv.1).drop 1).headD "", kv.2,
        roundTo2 ((kv.2 : ℚ) /
          (min ((JsMap.find? (couplingState commits maxF).2
              ((splitKey kv.1).headD "")).getD 0)
            ((JsMap.find? (couplingState commits maxF).2
              (((splitKey kv.1).drop 1).headD "")).getD 0) : ℚ))⟩ := by
  simp only [coupling] at he
  have h1 := List.mem_of_mem_take he
  have h2 := (List.perm_insertionSort couplingLe _).mem_iff.mp h1
  rcases List.mem_map.mp h2 with ⟨kv, hkv, hge⟩
  have h3 := List.mem_filter.mp hkv
  exact ⟨kv, h3.1, by simpa using h3.2, hge.symm⟩

/-- C9 (amended): provided no path contains the character `':'`, every
coupling row's `fileA` and `fileB` are two distinct paths, in ascending
lexicographic order, that co-occurred in a qualifying commit.  (With
arbitrary paths the composite `:::` string key is split wrongly — see the
counterexample.) -/
theorem coupling_pairs_cooccur (commits : List Commit) (top : Nat)
    (minCommits : Int) (maxF : Nat) (hcf : pathsColonFree commits) :
    ∀ e ∈ coupling commits top minCommits maxF,
      e.fileA < e.fileB ∧
      ∃ c ∈ commits, qualifies maxF c ∧ touches c e.fileA = true ∧
        touches c e.fileB = true := by
  intro e he
  rcases mem_coupling commits top minCommits maxF e he with ⟨kv, hkv, hmin, rfl⟩
  have hnd := (couplingState_nodup_keys commits maxF).1
  have hfind := JsMap.find?_of_mem _ kv hnd hkv
  rcases goodPairs_state commits maxF hcf kv.1 kv.2 hfind with
    ⟨p, q, hlt, hc1, hc2, hkey, h1, hb1, hb2, c, hWc, hq', ht1, ht2⟩
  have hsplit : splitKey kv.1 = [p, q] := by
    rw [hkey]
    exact splitKey_sep p q hc1 hc2
  refine ⟨?_, c, hWc, hq', ?_, ?_⟩
  · show (splitKey kv.1).headD "" < ((splitKey kv.1).drop 1).headD ""
    rw [hsplit]
    exact hlt
  · show touches c ((splitKey kv.1).headD "") = true
    rw [hsplit]
    exact ht1
  · show touches c (((splitKey kv.1).drop 1).headD "") = true
    rw [hsplit]
    exact ht2

/-- The head of the coupling result on `cleanCommits` is a member of it
(the projected result list is nonempty). -/
theorem coupling_clean_head_mem :
    (coupling cleanCommits 20 1 30).headD ⟨"", "", 0, 0⟩
      ∈ coupling cleanCommits 20 1 30 := by
  have hm : (coupling cleanCommits 20 1 30).map
      (fun e => (e.fileA, e.fileB, e.coupled)) = [("a", "b", 1)] := by decide
  cases hl : coupling cleanCommits 20 1 30 with
  | nil =>
    rw [hl] at hm
    cases hm
  | cons x t => exact List.mem_cons_self x t

/-- Witness for the amended C9 at a concrete input and result row. -/
theorem coupling_pairs_cooccur_witness :
    ((coupling cleanCommits 20 1 30).headD ⟨"", "", 0, 0⟩).fileA
      < ((coupling cleanCommits 20 1 30).headD ⟨"", "", 0, 0⟩).fileB ∧
    ∃ c ∈ cleanCommits, qualifies 30 c ∧
      touches c ((coupling cleanCommits 20 1 30).headD ⟨"", "", 0, 0⟩).fileA = true ∧
      touches c ((coupling cleanCommits 20 1 30).headD ⟨"", "", 0, 0⟩).fileB = true :=
  coupling_pairs_cooccur cleanCommits 20 1 30 (by unfold pathsColonFree; decide)
    _ coupling_clean_head_mem

/-- A commit sequence with a path that itself contains `':::'`. -/
def colonPathCommits : List Commit :=
  [⟨"h1", "A", 0, "m", [⟨"a:::b", 1, 0, false⟩, ⟨"c", 1, 0, false⟩]⟩]

/-- C9, counterexample: the single commit touches the two distinct paths
`"a:::b"` and `"c"`, yet the returned pair is `("a", "b")` — obtained by
splitting the composite key `"a:::b:::c"` — and neither `"a"` nor `"b"` is
a path touched by any commit. -/
theorem coupling_pair_key_misparse :
    (coupling colonPathCommits 20 1 30).map (fun e => (e.fileA, e.fileB, e.coupled))
      = [("a", "b", 1)] ∧
    (∀ c ∈ colonPathCommits, touches c "a" = false ∧ touches c "b" = false) := by
  decide

/-- The per-path qualifying-commit counter of `coupling` (`fileCounts`),
read back after processing the whole sequence. -/
def fileCount (commits : List Commit) (maxF : Nat) (p : String) : Nat :=
  countOf (couplingState commits maxF).2 p

theorem roundTo2_bounds (d : ℚ) (h0 : 0 ≤ d) (h1 : d ≤ 1) :
    0 ≤ roundTo2 d ∧ roundTo2 d ≤ 1 := by
  unfold roundTo2
  have hd100 : (0 : ℚ) ≤ d * 100 := by positivity
  have hl : (0 : ℤ) ≤ round (d * 100) := by
    rw [round_eq]
    apply Int.le_floor.mpr
    push_cast
    linarith
  have hu : round (d * 100) ≤ 100 := by
    rw [round_eq]
    have h2 : d * 100 + 1 / 2 ≤ (201 : ℚ) / 2 := by linarith
    have h3 := Int.floor_le_floor h2
    have h4 : ⌊(201 : ℚ) / 2⌋ = 100 := by norm_num
    omega
  constructor
  · apply div_nonneg _ (by norm_num)
    exact_mod_cast hl
  · rw [div_le_one (by norm_num)]
    exact_mod_cast hu

/-- C3 (amended): provided no path contains `':'`, every coupling row's
degree equals its co-occurrence count divided by the minimum of the two
files' qualifying-commit counts, rounded to 2 decimals; the divisor is
positive and `0 ≤ degree ≤ 1`.  (With a path containing `':::'` the
divisor can be 0 — see the counterexample — and the JavaScript division
then yields `Infinity`.) -/
theorem coupling_degree_bounds (commits : List Commit) (top : Nat)
    (minCommits : Int) (maxF : Nat) (hcf : pathsColonFree commits) :
    ∀ e ∈ coupling commits top minCommits maxF,
      0 < min (fileCount commits maxF e.fileA) (fileCount commits maxF e.fileB) ∧
      e.degree = roundTo2 ((e.coupled : ℚ) /
        (min (fileCount commits maxF e.fileA)
          (fileCount commits maxF e.fileB) : ℚ)) ∧
      0 ≤ e.degree ∧ e.degree ≤ 1 := by
  intro e he
  rcases mem_coupling commits top minCommits maxF e he with ⟨kv, hkv, hmin, rfl⟩
  have hnd := (couplingState_nodup_keys commits maxF).1
  have hfind := JsMap.find?_of_mem _ kv hnd hkv
  rcases goodPairs_state commits maxF hcf kv.1 kv.2 hfind with
    ⟨p, q, hlt, hc1, hc2, hkey, h1, hb1, hb2, c, hWc, hq', ht1, ht2⟩
  have hsplit : splitKey kv.1 = [p, q] := by
    rw [hkey]
    exact splitKey_sep p q hc1 hc2
  have hA : (splitKey kv.1).headD "" = p := by rw [hsplit]; rfl
  have hB : ((splitKey kv.1).drop 1).headD "" = q := by rw [hsplit]; rfl
  have hgA : ((JsMap.find? (couplingState commits maxF).2
        ((splitKey kv.1).headD "")).getD 0)
      = countOf (couplingState commits maxF).2 p := by rw [hA]; rfl
  have hgB : ((JsMap.find? (couplingState commits maxF).2
        (((splitKey kv.1).drop 1).headD "")).getD 0)
      = countOf (couplingState commits maxF).2 q := by rw [hB]; rfl
  have hdvd : 0 < min (countOf (couplingState commits maxF).2 p)
      (countOf (couplingState commits maxF).2 q) := by omega
  have hdeg : (0 : ℚ) ≤ (kv.2 : ℚ) / (min (countOf (couplingState commits maxF).2 p)
      (countOf (couplingState commits maxF).2 q) : ℚ) ∧
      (kv.2 : ℚ) / (min (countOf (couplingState commits maxF).2 p)
      (countOf (couplingState commits maxF).2 q) : ℚ) ≤ 1 := by
    constructor
    · apply div_nonneg (by positivity)
      exact_mod_cast Nat.zero_le _
    · rw [div_le_one (by exact_mod_cast hdvd)]
      exact_mod_cast le_min hb1 hb2
  refine ⟨?_, ?_, ?_⟩
  · show 0 < min (fileCount commits maxF ((splitKey kv.1).headD ""))
      (fileCount commits maxF (((splitKey kv.1).drop 1).headD ""))
    rw [hA, hB]
    exact hdvd
  · show roundTo2 ((kv.2 : ℚ) /
        (min ((JsMap.find? (couplingState commits maxF).2
            ((splitKey kv.1).headD "")).getD 0)
          ((JsMap.find? (couplingState commits maxF).2
            (((splitKey kv.1).drop 1).headD "")).getD 0) : ℚ))
      = roundTo2 ((kv.2 : ℚ) /
        (min (fileCount commits maxF ((splitKey kv.1).headD ""))
          (fileCount commits maxF (((splitKey kv.1).drop 1).headD "")) : ℚ))
    rw [hA, hB]
    rfl
  · show 0 ≤ roundTo2 ((kv.2 : ℚ) /
        (min ((JsMap.find? (couplingState commits maxF).2
            ((splitKey kv.1).headD "")).getD 0)
          ((JsMap.find? (couplingState commits maxF).2
            (((splitKey kv.1).drop 1).headD "")).getD 0) : ℚ)) ∧
      roundTo2 ((kv.2 : ℚ) /
        (min ((JsMap.find? (couplingState commits maxF).2
            ((splitKey kv.1).headD "")).getD 0)
          ((JsMap.find? (couplingState commits maxF).2
            (((splitKey kv.1).drop 1).headD "")).getD 0) : ℚ)) ≤ 1
    rw [hgA, hgB]
    exact roundTo2_bounds _ hdeg.1 hdeg.2

/-- Witness for the amended C3 at a concrete input and result row. -/
theorem coupling_degree_bounds_witness :
    0 < min
      (fileCount cleanCommits 30
        ((coupling cleanCommits 20 1 30).headD ⟨"", "", 0, 0⟩).fileA)
      (fileCount cleanCommits 30
        ((coupling cleanCommits 20 1 30).headD ⟨"", "", 0, 0⟩).fileB) ∧
    ((coupling cleanCommits 20 1 30).headD ⟨"", "", 0, 0⟩).degree
      = roundTo2
        ((((coupling cleanCommits 20 1 30).headD ⟨"", "", 0, 0⟩).coupled : ℚ) /
        (min
          (fileCount cleanCommits 30
            ((coupling cleanCommits 20 1 30).headD ⟨"", "", 0, 0⟩).fileA)
          (fileCount cleanCommits 30
            ((coupling cleanCommits 20 1 30).headD ⟨"", "", 0, 0⟩).fileB) : ℚ)) ∧
    0 ≤ ((coupling cleanCommits 20 1 30).headD ⟨"", "", 0, 0⟩).degree ∧
    ((coupling cleanCommits 20 1 30).headD ⟨"", "", 0, 0⟩).degree ≤ 1 :=
  coupling_degree_bounds cleanCommits 20 1 30 (by unfold pathsColonFree; decide)
    _ coupling_clean_head_mem

/-- C3, counterexample: on a path containing `':::'`, `coupling` returns a
pair whose divisor `min(totalA, totalB)` is 0 — the claim that the divisor
is never zero fails (in JavaScript the resulting degree is `Infinity`). -/
theorem coupling_zero_divisor :
    (coupling colonPathCommits 20 1 30).map (fun e => (e.fileA, e.fileB, e.coupled))
      = [("a", "b", 1)] ∧
    min (fileCount colonPathCommits 30 "a") (fileCount colonPathCommits 30 "b")
      = 0 := by
  decide

/-- C7 (amended): a commit with fewer than 2 or more than
`maxFilesPerCommit` distinct paths leaves both counter maps unchanged; a
qualifying commit bumps each of its distinct paths' counters by exactly 1,
leaves non-pair keys of the pairs map unchanged and — provided its paths
contain no `':'` — bumps each unordered pair's key counter by exactly 1.
(With `':'` in paths two distinct pairs can share one key — see the
counterexample.) -/
theorem couplingStep_contribution (maxF : Nat) (st : JsMap Nat × JsMap Nat)
    (c : Commit) :
    ((distinctPaths c).length < 2 ∨ maxF < (distinctPaths c).length →
      couplingStep maxF st c = st) ∧
    (2 ≤ (distinctPaths c).length → (distinctPaths c).length ≤ maxF →
      (∀ p, countOf (couplingStep maxF st c).2 p
        = countOf st.2 p + (if p ∈ distinctPaths c then 1 else 0)) ∧
      (∀ k, k ∉ pairKeys (distinctPaths c) →
        JsMap.find? (couplingStep maxF st c).1 k = JsMap.find? st.1 k) ∧
      ((∀ f ∈ c.files, colonFree f.path = true) →
        ∀ p q, p ∈ distinctPaths c → q ∈ distinctPaths c → p < q →
          countOf (couplingStep maxF st c).1 (p ++ ":::" ++ q)
            = countOf st.1 (p ++ ":::" ++ q) + 1)) := by
  constructor
  · exact couplingStep_skip maxF st c
  · intro h2 h3
    rw [couplingStep_go maxF st c h2 h3]
    refine ⟨?_, ?_, ?_⟩
    · intro p
      show countOf (bumpAll st.2 (distinctPaths c)) p = _
      rw [countOf_bumpAll]
      by_cases hp : p ∈ distinctPaths c
      · rw [List.count_eq_one_of_mem (distinctPaths_nodup c) hp, if_pos hp]
      · rw [List.count_eq_zero_of_not_mem hp, if_neg hp]
    · intro k hk
      show JsMap.find? (bumpAll st.1 (pairKeys (distinctPaths c))) k = _
      exact find?_bumpAll_not_mem _ _ _ hk
    · intro hcf p q hp hq hlt
      show countOf (bumpAll st.1 (pairKeys (distinctPaths c))) _ = _
      rw [countOf_bumpAll]
      have hPcf : ∀ x ∈ distinctPaths c, colonFree x = true := by
        intro x hx
        rcases List.mem_map.mp ((mem_distinctPaths c x).mp hx) with ⟨f, hf, rfl⟩
        exact hcf f hf
      rw [List.count_eq_one_of_mem
        (pairKeys_nodup _ (distinctPaths_nodup c) hPcf)
        (mem_pairKeys _ p q (distinctPaths_sorted_lt c) hp hq hlt)]

/-- A commit touching a single path. -/
def soloCommit : Commit := ⟨"h", "A", 0, "m", [⟨"solo", 1, 0, false⟩]⟩

/-- A commit touching two colon-free paths. -/
def pairCommit : Commit :=
  ⟨"h", "A", 0, "m", [⟨"a", 1, 0, false⟩, ⟨"b", 2, 0, false⟩]⟩

/-- Witness for the amended C7 at concrete commits. -/
theorem couplingStep_contribution_witness :
    (couplingStep 30 ([], []) soloCommit = ([], [])) ∧
    (∀ p, countOf (couplingStep 30 ([], []) pairCommit).2 p
      = countOf (([], []) : JsMap Nat × JsMap Nat).2 p
        + (if p ∈ distinctPaths pairCommit then 1 else 0)) ∧
    (∀ k, k ∉ pairKeys (distinctPaths pairCommit) →
      JsMap.find? (couplingStep 30 ([], []) pairCommit).1 k
        = JsMap.find? (([], []) : JsMap Nat × JsMap Nat).1 k) ∧
    (∀ p q, p ∈ distinctPaths pairCommit → q ∈ distinctPaths pairCommit →
      p < q →
      countOf (couplingStep 30 ([], []) pairCommit).1 (p ++ ":::" ++ q)
        = countOf (([], []) : JsMap Nat × JsMap Nat).1 (p ++ ":::" ++ q) + 1) := by
  have hsolo := (couplingStep_contribution 30 ([], []) soloCommit).1 (by decide)
  have hpair := (couplingStep_contribution 30 ([], []) pairCommit).2
    (by decide) (by decide)
  exact ⟨hsolo, hpair.1, hpair.2.1, hpair.2.2 (by decide)⟩

/-- A commit whose four distinct paths produce a pair-key collision:
the pairs (`"a"`, `"b:::c"`) and (`"a:::b"`, `"c"`) share the composite
key `"a:::b:::c"`. -/
def collisionCommit : Commit :=
  ⟨"h1", "A", 0, "m",
    [⟨"a", 1, 0, false⟩, ⟨"a:::b", 1, 0, false⟩,
     ⟨"b:::c", 1, 0, false⟩, ⟨"c", 1, 0, false⟩]⟩

/-- C7, counterexample: processing the single (qualifying) commit above
from the empty state leaves the counter of the unordered pair
(`"a"`, `"b:::c"`) — the key `"a" ++ ":::" ++ "b:::c"` — at 2, not 1:
two distinct pairs of distinct paths of one commit share one counter. -/
theorem couplingStep_pair_counter_collision :
    2 ≤ (distinctPaths collisionCommit).length ∧
    (distinctPaths collisionCommit).length ≤ 30 ∧
    "a" ∈ distinctPaths collisionCommit ∧
    "b:::c" ∈ distinctPaths collisionCommit ∧
    charListLt "a".data "b:::c".data = true ∧
    countOf (couplingStep 30 ([], []) collisionCommit).1 ("a" ++ ":::" ++ "b:::c")
      = 2 := by
  decide

end GitDig
